import Mathlib

/-!
Verification of the KaChat splitting scripts.

Source lines are modelled as lists of characters without their trailing
newline (the newline character is inert for every scanner in the
repository: it is not a brace, not a quote, and not part of any marker).
Brace characters are written with hexadecimal escapes throughout.
-/

namespace KaChat

/-- Character used for an opening curly brace. -/
def braceOpen : Char := '\x7b'

/-- Character used for a closing curly brace. -/
def braceClose : Char := '\x7d'

/-- Whitespace characters stripped by Python str.strip. -/
def isPyWs (c : Char) : Bool :=
  c = ' ' || c = '\t' || c = '\n' || c = '\r' || c = '\x0b' || c = '\x0c'

/-- Python str.strip: remove leading and trailing whitespace. -/
def pstrip (l : List Char) : List Char :=
  ((l.dropWhile isPyWs).reverse.dropWhile isPyWs).reverse

/-- A source line, without its trailing newline. -/
abbrev Line := List Char

/-- Count occurrences of a character in a line. -/
def countChar (c : Char) (l : Line) : Nat :=
  l.countP (fun x => x = c)

/-- Net brace contribution of a line, as used by the naive depth loops
(smart_split.py line 177, reassemble/restore balance checks):
count of open braces minus count of close braces. -/
def braceNet (l : Line) : Int :=
  (countChar braceOpen l : Int) - (countChar braceClose l : Int)

/-- Character-level state of the per-line scanner of
compute_brace_depths (split_chatservice_v2.py lines 32-89).  The inner
while loops of the source for block comments, regular strings and
triple-quoted strings each become one mode; the string modes are local
to a line, matching the source, where only the block-comment flag
survives to the next line. -/
inductive ScanMode where
  | normal
  | inBC
  | inStr
  | inTri
deriving Repr, DecidableEq

/-- Per-line scanner of compute_brace_depths: walk the characters of one
line carrying the running brace depth and the mode; a line comment
discards the rest of the line, string contents are skipped with
backslash escapes honoured, braces adjust the depth in normal mode only.
Returns the depth and the block-comment flag at the end of the line. -/
def scanLineM : List Char → ScanMode → Int → Int × Bool
  | [], m, d => (d, m = ScanMode.inBC)
  | '*' :: '/' :: rest, ScanMode.inBC, d => scanLineM rest ScanMode.normal d
  | _ :: rest, ScanMode.inBC, d => scanLineM rest ScanMode.inBC d
  | '\\' :: _ :: rest, ScanMode.inStr, d => scanLineM rest ScanMode.inStr d
  | '"' :: rest, ScanMode.inStr, d => scanLineM rest ScanMode.normal d
  | _ :: rest, ScanMode.inStr, d => scanLineM rest ScanMode.inStr d
  | '"' :: '"' :: '"' :: rest, ScanMode.inTri, d => scanLineM rest ScanMode.normal d
  | '\\' :: _ :: rest, ScanMode.inTri, d => scanLineM rest ScanMode.inTri d
  | _ :: rest, ScanMode.inTri, d => scanLineM rest ScanMode.inTri d
  | '/' :: '*' :: rest, ScanMode.normal, d => scanLineM rest ScanMode.inBC d
  | '/' :: '/' :: _, ScanMode.normal, d => (d, false)
  | '"' :: '"' :: '"' :: rest, ScanMode.normal, d => scanLineM rest ScanMode.inTri d
  | '"' :: rest, ScanMode.normal, d => scanLineM rest ScanMode.inStr d
  | c :: rest, ScanMode.normal, d =>
      scanLineM rest ScanMode.normal
        (if c = braceOpen then d + 1
         else if c = braceClose then d - 1 else d)

/-- Scan of one line given the carried block-comment flag. -/
def scanLine (s : List Char) (depth : Int) (inBC : Bool) : Int × Bool :=
  scanLineM s (if inBC then ScanMode.inBC else ScanMode.normal) depth

/-- Fold of the per-line scanner over the lines of a file, recording the
depth at the end of every line (split_chatservice_v2.py lines 26-91). -/
def computeBraceDepthsAux : List Line → Int → Bool → List Int
  | [], _, _ => []
  | l :: ls, d, bc =>
      let r := scanLine l d bc
      r.1 :: computeBraceDepthsAux ls r.1 r.2

/-- compute_brace_depths from split_chatservice_v2.py: per-line brace
depth of a file, starting outside any comment at depth zero. -/
def compute_brace_depths (lines : List Line) : List Int :=
  computeBraceDepthsAux lines 0 false

/-- Final scanner state (depth and block-comment flag) after a list of
lines; used to reason about state carried across lines. -/
def scanLinesState : List Line → Int → Bool → Int × Bool
  | [], d, bc => (d, bc)
  | l :: ls, d, bc =>
      let r := scanLine l d bc
      scanLinesState ls r.1 r.2

/-- Decidable test for an occurrence of the two-character block-comment
closing marker inside a line. -/
def hasStarSlash : List Char → Bool
  | '*' :: '/' :: _ => true
  | _ :: rest => hasStarSlash rest
  | [] => false

/-- Test from find_nearest_cut (split_chatservice_v2.py line 121): a line
is clean when it is blank or a line comment after stripping. -/
def isCleanLine (l : Line) : Bool :=
  let st := pstrip l
  st.isEmpty || "//".data.isPrefixOf st

/-- Distance used by find_nearest_cut, doubled so that the half-line
preference for clean lines (dist -= 0.5 at line 124) stays integral:
doubled distance is 2 * abs(i - target), minus 1 for a clean line. -/
def cutDist (target i : Nat) (clean : Bool) : Int :=
  2 * (((i : Int) - (target : Int)).natAbs : Int) - (if clean then 1 else 0)

/-- Doubled form of the initial best_dist = 999999 of find_nearest_cut. -/
def cutDistInit : Int := 1999998

/-- Loop of find_nearest_cut over the candidate indices, carrying the best
index and its doubled distance (split_chatservice_v2.py lines 117-127). -/
def fncAux (target : Nat) (depths : List Int) (lines : List Line) :
    List Nat → Option Nat → Int → Option Nat
  | [], best, _ => best
  | i :: rest, best, bd =>
      if depths.getD i 0 = 1 then
        let dist := cutDist target i (isCleanLine (lines.getD i []))
        if dist < bd then fncAux target depths lines rest (some i) dist
        else fncAux target depths lines rest best bd
      else fncAux target depths lines rest best bd

/-- Search window of find_nearest_cut: indices from max(0, target - 30)
to min(len(lines), target + 30), exclusive.  Natural subtraction already
truncates at zero exactly like the max with zero. -/
def cutWindow (target : Nat) (lines : List Line) : List Nat :=
  let lo := target - 30
  let hi := min lines.length (target + 30)
  List.range' lo (hi - lo)

/-- find_nearest_cut from split_chatservice_v2.py lines 112-128: nearest
line to the target, inside the window, whose depth is one; blank and
comment-only lines get a half-line preference; returns none when the
window holds no line at depth one. -/
def find_nearest_cut (target : Nat) (depths : List Int) (lines : List Line) :
    Option Nat :=
  fncAux target depths lines (cutWindow target lines) none cutDistInit

/-- Literal text of the Python access qualifier followed by a space. -/
def privateKw : List Char := "private ".data

/-- One substitution rule of strip_private_from_declarations or
strip_private_properties: the pattern is an anchored nonempty whitespace
run, the word private with a trailing space, and the given keyword; the
replacement keeps the whitespace and the keyword
(split_chatservice_v2.py lines 170-196, patterns of the form
caret (backslash-s plus) private (keyword)). -/
def subRuleWs (kw : List Char) (l : Line) : Line :=
  let ws := l.takeWhile isPyWs
  let rest := l.dropWhile isPyWs
  if ws ≠ [] ∧ (privateKw ++ kw).isPrefixOf rest then
    ws ++ kw ++ rest.drop (privateKw.length + kw.length)
  else l

/-- Keyword list of strip_private_from_declarations, in source order. -/
def v2DeclKws : List (List Char) :=
  ["func ".data, "var ".data, "let ".data, "enum ".data, "struct ".data,
   "nonisolated ".data]

/-- Keyword list of strip_private_properties, in source order. -/
def v2PropKws : List (List Char) :=
  ["var ".data, "let ".data, "enum ".data, "struct ".data]

/-- Sequential application of the substitution rules of one rewriter. -/
def applyRules (rules : List (List Char)) (l : Line) : Line :=
  rules.foldl (fun acc kw => subRuleWs kw acc) l

/-- strip_private_from_declarations from split_chatservice_v2.py
lines 170-184. -/
def strip_private_from_declarations (l : Line) : Line :=
  applyRules v2DeclKws l

/-- Containment of a pattern as a contiguous run inside a line, the
Python substring test. -/
def hasInfix (pat : List Char) : List Char → Bool
  | [] => pat.isEmpty
  | c :: rest => pat.isPrefixOf (c :: rest) || hasInfix pat rest

/-- Compound qualifier marker checked by strip_private_properties. -/
def privateSetMark : List Char := "private(set)".data

/-- strip_private_properties from split_chatservice_v2.py lines 186-196:
lines carrying the compound private(set) qualifier are returned
unchanged; otherwise the property keyword rules apply. -/
def strip_private_properties (l : Line) : Line :=
  if hasInfix privateSetMark l then l else applyRules v2PropKws l

/-- Exactly four spaces, the indentation captured by fix_private_access. -/
def indent4 : List Char := "    ".data

/-- One substitution rule of fix_private_access (split_chatservice.py
lines 100-126): anchored at a line start, exactly four spaces, the word
private and a trailing space, then the keyword. -/
def subRule4 (kw : List Char) (l : Line) : Line :=
  if (indent4 ++ privateKw ++ kw).isPrefixOf l then
    indent4 ++ kw ++ l.drop (indent4.length + privateKw.length + kw.length)
  else l

/-- Keyword list of fix_private_access, in source order. -/
def fpaKws : List (List Char) :=
  ["func ".data, "var ".data, "let ".data, "enum ".data, "struct ".data]

/-- Sequential application of the exact-indent substitution rules. -/
def applyRules4 (rules : List (List Char)) (l : Line) : Line :=
  rules.foldl (fun acc kw => subRule4 kw acc) l

/-- fix_private_access from split_chatservice.py lines 100-126, modelled
per line; the source applies the same anchored patterns to the whole
file content in multiline mode, which rewrites each line independently. -/
def fix_private_access (l : Line) : Line :=
  applyRules4 fpaKws l

/-- Lines of the IMPORTS constant of split_chatservice_v2.py followed by
the extra newline appended at line 271, which yields a blank line. -/
def v2ImportLines : List Line :=
  ["import Foundation".data, "import Combine".data, "import UIKit".data,
   "import UserNotifications".data, "import CryptoKit".data, []]

/-- Line opening an extension block in every generated extension file. -/
def extHeaderLine : Line := "extension ChatService \x7b".data

/-- Hard-coded cut targets of split_chatservice_v2.py line 110. -/
def v2Targets : List Nat := [562, 1818, 3426, 5559, 7933, 9362]

/-- Section slicing of split_chatservice_v2.py lines 143-148: each cut
index ends a section inclusively, and the remainder forms the last
section. -/
def mkSections (lines : List Line) : List Nat → Nat → List (List Line)
  | [], prev => [lines.drop prev]
  | c :: cs, prev => ((lines.take (c + 1)).drop prev) :: mkSections lines cs (c + 1)

/-- Names and descriptions of the seven output files of
split_chatservice_v2.py lines 214-244; the first entry is the main file. -/
def v2FileConfigs : List (String × String) :=
  [("ChatService.swift",
    "Core class declaration, properties, init, observers, lifecycle"),
   ("ChatService+PushAndSync.swift",
    "Push notifications, sync orchestration, UTXO subscriptions, archive"),
   ("ChatService+UtxoProcessing.swift",
    "UTXO notification handling, payment resolution, self-stash processing"),
   ("ChatService+Conversations.swift",
    "Conversation state, message sending, handshake sending, fee estimation"),
   ("ChatService+Fetching.swift",
    "Handshake/message/payment fetching from APIs, processing"),
   ("ChatService+Persistence.swift",
    "Data persistence, UI helpers, aliases, CloudKit, badges"),
   ("ChatService+Decryption.swift",
    "Message decryption, hex utilities, support structures")]

/-- Drop trailing blank lines, as the while loop at
split_chatservice_v2.py lines 289-290. -/
def dropTrailingBlank (ls : List Line) : List Line :=
  (ls.reverse.dropWhile (fun l => (pstrip l).isEmpty)).reverse

/-- Drop a final line holding only a closing brace, as
split_chatservice_v2.py lines 292-293. -/
def popClassClose (ls : List Line) : List Line :=
  match ls.getLast? with
  | some l => if pstrip l = [braceClose] then ls.dropLast else ls
  | none => ls

/-- Main-file assembly of split_chatservice_v2.py lines 253-262: strip
private from properties and close the class. -/
def buildMainV2 (sec : List Line) : List Line :=
  sec.map strip_private_properties ++ [[braceClose]]

/-- Extension-file assembly of split_chatservice_v2.py lines 269-296;
for the last section the trailing blanks and the old class closing brace
are removed before the extension closing brace is appended. -/
def buildExtV2 (desc : String) (isLast : Bool) (sec : List Line) : List Line :=
  let base := v2ImportLines ++ [("// MARK: - " ++ desc).data, [], extHeaderLine]
      ++ sec.map strip_private_from_declarations
  if isLast then popClassClose (dropTrailingBlank base) ++ [[braceClose]]
  else base ++ [[braceClose]]

/-- Final depth reported by the verification loop of
split_chatservice_v2.py lines 316-326 for one written file. -/
def fileFinalDepth (content : List Line) : Int :=
  (compute_brace_depths content).getLastD 0

/-- Observable outcome of one run of split_chatservice_v2.py: whether the
cut-depth assertion of STEP 4 aborted the run, which files STEP 6 wrote,
and whether the STEP 7 balance verification succeeded. -/
structure V2Result where
  aborted : Bool
  written : List (String × List Line)
  verifyOk : Bool
deriving Repr, DecidableEq

/-- Write loop of STEP 6 (split_chatservice_v2.py lines 248-300): the
sections are zipped with the file configurations; the first config is
the main file, the others are extensions. -/
def v2WritePhase (sections : List (List Line)) : List (String × List Line) :=
  (List.zip sections v2FileConfigs).enum.map
    (fun p =>
      (p.2.2.1,
       if p.1 = 0 then buildMainV2 p.2.1
       else buildExtV2 p.2.2.2 (p.1 = sections.length - 1) p.2.1))

/-- One full run of split_chatservice_v2.py on an input file: compute
depths, choose cut points, slice sections, run the STEP 4 cut assertion,
write every output file, then verify balance (STEP 7).  Writing happens
before verification; only the STEP 4 assertion aborts before writing. -/
def v2Run (lines : List Line) : V2Result :=
  let depths := compute_brace_depths lines
  let cuts := v2Targets.filterMap (fun t => find_nearest_cut t depths lines)
  if cuts.all (fun c => depths.getD c 0 == 1) then
    let sections := mkSections lines cuts 0
    let written := v2WritePhase sections
    { aborted := false, written := written,
      verifyOk := written.all (fun f => fileFinalDepth f.2 == 0) }
  else { aborted := true, written := [], verifyOk := false }

/-- Declaration-introducing prefixes of the is_decl regular expression in
smart_split.py lines 158-162, matched against the stripped line. -/
def declPrefixes : List (List Char) :=
  ["func ".data, "var ".data, "let ".data, "enum ".data, "struct ".data,
   "class ".data, "@Published".data, "@discardableResult".data,
   "nonisolated ".data, "init(".data, "static ".data, "/// ".data,
   "// MARK".data]

/-- Test whether a stripped line opens a top-level declaration. -/
def is_decl (st : Line) : Bool :=
  declPrefixes.any (fun p => p.isPrefixOf st)

/-- ASCII word characters of the regex word class; the scanned sources
are ASCII, so the unicode cases of the Python class never arise. -/
def isWordChar (c : Char) : Bool :=
  ('a' ≤ c && c ≤ 'z') || ('A' ≤ c && c ≤ 'Z') || ('0' ≤ c && c ≤ '9') || c = '_'

/-- Match one or more whitespace characters greedily, returning the rest. -/
def matchWsPlus (s : List Char) : Option (List Char) :=
  if (s.takeWhile isPyWs).isEmpty then none else some (s.dropWhile isPyWs)

/-- Match one or more word characters greedily, returning the word. -/
def matchWordPlus (s : List Char) : Option (List Char) :=
  let w := s.takeWhile isWordChar
  if w.isEmpty then none else some w

/-- Match a literal pattern, returning the rest. -/
def matchLit (pat s : List Char) : Option (List Char) :=
  if pat.isPrefixOf s then some (s.drop pat.length) else none

/-- Match a keyword, mandatory whitespace, and a captured word, the core
of each name-extraction pattern in smart_split.py lines 133-143. -/
def matchKwName (kw s : List Char) : Option String :=
  match matchLit kw s with
  | none => none
  | some r1 =>
      match matchWsPlus r1 with
      | none => none
      | some r2 => (matchWordPlus r2).map String.mk

/-- First name pattern: an optional nonisolated prefix, then func and the
function name; failure of the tail backtracks to the empty option. -/
def extractFuncName (s : List Char) : Option String :=
  match matchLit "nonisolated".data s with
  | some r1 =>
      match matchWsPlus r1 with
      | some r2 =>
          match matchKwName "func".data r2 with
          | some n => some n
          | none => matchKwName "func".data s
      | none => matchKwName "func".data s
  | none => matchKwName "func".data s

/-- Second and third name patterns: an optional attribute prefix of an at
sign and a word, then var or let and the name. -/
def extractAttrKwName (kw : List Char) (s : List Char) : Option String :=
  match s with
  | '@' :: r0 =>
      match matchWordPlus r0 with
      | some w =>
          match matchWsPlus (r0.drop w.length) with
          | some r2 =>
              match matchKwName kw r2 with
              | some n => some n
              | none => matchKwName kw s
          | none => matchKwName kw s
      | none => matchKwName kw s
  | _ => matchKwName kw s

/-- Fourth name pattern: enum, struct or class followed by the name. -/
def extractTypeName (s : List Char) : Option String :=
  match matchKwName "enum".data s with
  | some n => some n
  | none =>
      match matchKwName "struct".data s with
      | some n => some n
      | none => matchKwName "class".data s

/-- Name extraction of MethodSpan (smart_split.py lines 132-143): the
patterns are tried in order on the stripped line and the fallback is the
first forty characters of the stripped line. -/
def extract_name (l : Line) : String :=
  let s := pstrip l
  match extractFuncName s with
  | some n => n
  | none =>
      match extractAttrKwName "var".data s with
      | some n => n
      | none =>
          match extractAttrKwName "let".data s with
          | some n => n
          | none =>
              match extractTypeName s with
              | some n => n
              | none => String.mk (s.take 40)

/-- A detected top-level declaration span of smart_split.py: the line
interval, the stripped first line, and the extracted name.  The source
attribute end is called stop here. -/
structure MethodSpan where
  start : Nat
  stop : Nat
  firstLine : Line
  name : String
deriving Repr, DecidableEq

/-- Close the currently open span at an end index. -/
def closeSpan (st : Nat × Line) (e : Nat) : MethodSpan :=
  { start := st.1, stop := e, firstLine := pstrip st.2, name := extract_name st.2 }

/-- Boundary scan of smart_split.py lines 145-182: at naive depth zero a
declaration-opening line closes the running span and opens a new one;
the two source branches for ordinary and documentation lines perform
identical statements, so they are one case here.  The naive depth adds
the brace counts of the whole line, with no comment or string awareness. -/
def scanBodyAux : List Line → Nat → Int → Option (Nat × Line) →
    List MethodSpan → List MethodSpan
  | [], n, _, cur, acc =>
      (match cur with
       | none => acc
       | some st => acc ++ [closeSpan st n])
  | l :: ls, n, d, cur, acc =>
      if d == 0 && is_decl (pstrip l) then
        scanBodyAux ls (n + 1) (d + braceNet l) (some (n, l))
          (match cur with
           | none => acc
           | some st => acc ++ [closeSpan st n])
      else scanBodyAux ls (n + 1) (d + braceNet l) cur acc

/-- Full boundary detection over a class body. -/
def find_methods (body : List Line) : List MethodSpan :=
  scanBodyAux body 0 0 none []

/-- SYNC_METHODS of smart_split.py lines 191-210. -/
def SYNC_METHODS : List String :=
  ["ChatHistoryImportSummary", "ChatHistoryArchiveError",
   "exportChatHistoryArchive", "importChatHistoryArchive",
   "recordRemotePushDelivery",
   "maybeRunCatchUpSync", "startPolling", "startFallbackPolling",
   "setupUtxoSubscription", "scheduleSubscriptionRetry",
   "setupUtxoSubscriptionAfterReconnect",
   "pauseUtxoSubscriptionForRemotePush", "resumeUtxoSubscriptionForRemotePush",
   "addContactToUtxoSubscription", "syncContactHistoryFromGenesis",
   "checkAndResubscribeIfNeeded", "executeResubscriptionIfNeeded",
   "addMessageFromPush", "addPaymentFromPush",
   "fetchPaymentByTxId", "fetchMessageByTxId",
   "fetchMessageByTxIdFromMempool", "fetchMessageByTxIdFromIndexer",
   "fetchMessageByTxIdFromKaspaRest",
   "kaspaRestURL", "fetchKaspaTransaction", "resolvePaymentDetailsFromKaspa",
   "updateUtxoSubscriptionForRealtimeChange",
   "disableRealtimeForContact", "dismissNoisyContactWarning",
   "startDisabledContactsPolling", "pollDisabledContacts",
   "recordIrrelevantTxNotification"]

/-- UTXO_METHODS of smart_split.py lines 212-233. -/
def UTXO_METHODS : List String :=
  ["handleUtxoChangeNotification", "enqueueUtxoNotification",
   "processQueuedUtxoNotificationsIfNeeded", "processParsedUtxoChangeNotification",
   "enqueueIncomingPaymentResolution", "runIncomingPaymentResolution",
   "resolveAndProcessIncomingPayment",
   "scheduleResolveRetry", "resolveRetryDelayNs",
   "markIncomingResolutionWarning", "clearIncomingResolutionTracking",
   "incomingAmountHint", "parseKasAmountFromPaymentContent",
   "updateIncomingPaymentDeliveryStatus", "handleIncomingSpecialPayload",
   "retryIncomingWarningResolutionsOnSync",
   "resolveSelfStashCandidate", "clearSelfStashRetryState",
   "sumOutputsToAddress", "startMempoolResolveIfNeeded",
   "scheduleSelfStashRetry", "resolveAndProcessSelfStash",
   "shouldAttemptSelfStashDecryption",
   "primaryConversationAlias", "primaryOurAlias",
   "addConversationAlias", "addOurAlias",
   "aliasBelongsToAnotherContact", "resolvePayloadOnly", "removeMessage",
   "configureAPIIfNeeded", "stopPolling", "stopPollingTimerOnly",
   "enterConversation", "storedMessageCount", "storedMessageCountAsync",
   "readCursor", "loadOlderMessagesPage", "loadOlderMessagesPageAsync",
   "loadOlderMessagesPageInternal", "oldestLoadedCursor", "leaveConversation"]

/-- SENDING_METHODS of smart_split.py lines 235-270. -/
def SENDING_METHODS : List String :=
  ["fetchHandshakesOnly", "fetchNewMessages",
   "getConversation", "getOrCreateConversation",
   "sendMessage", "retryOutgoingMessage", "sendMessageInternal",
   "resolveMessageIdForPending", "resolveMessageIdForTx",
   "pruneOutgoingAttempts", "registerOutgoingAttempt",
   "markOutgoingAttemptSubmitting", "markOutgoingAttemptSubmitted",
   "markOutgoingAttemptFailed", "hasInFlightOutgoingAttemptWithoutTxId",
   "isKnownOutgoingAttemptTxId", "shouldDeferClassification",
   "promoteKnownOutgoingAttempt",
   "outpointKey", "prepareMessageUtxos", "pruneMessageUtxoCaches",
   "reserveMessageOutpoints", "consumePendingUtxos", "addPendingOutputs",
   "releaseMessageOutpoints",
   "shouldRetrySendError", "shouldRetryNoSpendableFundsError",
   "spendableFundsRetryDelay", "acceptedTransactionId",
   "extractLikelyTxId", "extractTxId", "extractFirstHex64",
   "extractFirstHex64AllowingWhitespace", "scheduleOutgoingRetry",
   "sendPayment", "estimateMessageFee", "estimatePaymentFee",
   "estimateMaxPaymentAmount",
   "sendHandshake", "shouldRetryHandshakeAsResponse", "respondToHandshake",
   "isConversationDeclined", "isConversationVisibleInChatList",
   "pushEligibleConversationAddresses",
   "hasOurAlias", "hasTheirAlias", "generateAlias", "generateConversationId",
   "updateWalletBalanceIfNeeded", "splitUtxosForHandshake",
   "connectRpcIfNeeded", "fetchCachedUtxos", "fetchUtxosWithFallback",
   "splitUtxosForSelfStash", "sendOrQueueSelfStash", "queueSelfStash",
   "submitSelfStashTx", "changeUtxo", "attemptPendingSelfStashSends",
   "updatePendingMessage", "markPendingMessageFailed", "resetPendingMessage",
   "updateOutgoingPendingMessageIfMatch", "updatePendingMessageById",
   "updateOldestPendingOutgoingMessage", "updateMostRecentPendingOutgoingMessage",
   "markConversationAsRead",
   "checkIndexerForHandshake", "fetchIncomingHandshakes", "fetchOutgoingHandshakes",
   "fetchIncomingPayments", "fetchOutgoingPayments",
   "applyMessageRetention", "messageRetentionCutoffMs",
   "fetchPaymentsFromKaspaAPI", "fetchFullTransactionsPaginated"]

/-- PROCESSING_METHODS of smart_split.py lines 272-293. -/
def PROCESSING_METHODS : List String :=
  ["processHandshakes", "reclassifyMisidentifiedHandshakes", "replaceMessageType",
   "resolveSenderAddress", "isValidKaspaAddress",
   "isHandshakePayload", "isContextualPayload", "isSelfStashPayload",
   "fetchSenderAddressFromTransaction", "resolveTransactionInfo",
   "resolveTransactionInfoFromIndexer", "resolveTransactionInfoFromKaspaRest",
   "fetchKaspaFullTransaction", "deriveSenderFromFullTx", "fetchAnyInputAddress",
   "fetchSavedHandshakes", "retryUntilSuccess",
   "beginChatFetch", "markChatFetchLoading", "endChatFetch",
   "fetchContextualMessages", "fetchContextualMessagesForActive",
   "fetchContextualMessagesFromContactWithRetry", "fetchContextualMessagesFromContact",
   "contextualFetchKey", "beginContextualFetch", "endContextualFetch",
   "processPayments",
   "findLocalMessage", "hasLocalMessage",
   "addOutgoingMessageFromPush", "scheduleCloudKitRetryForOutgoing",
   "contactAddressForOutgoingAlias", "resolveRawPayloadForTx",
   "addMessageToConversation", "updateIncomingPaymentStatus",
   "sendLocalNotification", "formatNotificationBody",
   "updateConversation",
   "decodeMessagePayload", "decodePaymentPayload",
   "messageType", "paymentContent", "formatKasAmount"]

/-- CORE_KEEP of smart_split.py lines 312-328. -/
def CORE_KEEP : List String :=
  ["conversations", "isLoading", "error", "declinedContacts",
   "settingsViewModel", "cachedSettings", "activeConversationAddress",
   "ChatFetchState", "chatFetchStates", "ContactFetchResult",
   "chatFetchCounts", "chatFetchFailed", "pendingChatNavigation",
   "isRpcSubscribed", "lastSuccessfulSyncDate", "currentConnectedNode",
   "currentNodeLatencyMs",
   "QueuedUtxoNotification", "OutgoingAttemptPhase", "OutgoingTxAttempt",
   "SyncObjectCursor", "PushReliabilityState", "PendingPushObservation",
   "connectionStatus",
   "apiClient", "contactsManager", "userDefaults", "messageStore",
   "init",
   "observeConversationCount", "observePingLatency",
   "observeNodePoolConnectionState", "observeRpcReconnection",
   "clearAllData", "wipeIncomingMessagesAndResync", "resetForNewWallet"]

/-- categorize from smart_split.py lines 298-308: first matching name set
wins and everything else goes to persistence. -/
def categorize (name : String) : String :=
  if SYNC_METHODS.contains name then "sync"
  else if UTXO_METHODS.contains name then "utxo"
  else if SENDING_METHODS.contains name then "sending"
  else if PROCESSING_METHODS.contains name then "processing"
  else "persistence"

/-- Prefixes of the property test at smart_split.py line 360: a first
line matching one of these is a function or type, not a property. -/
def funcLikePrefixes : List (List Char) :=
  ["func ".data, "enum ".data, "struct ".data, "class ".data, "init(".data,
   "nonisolated func".data, "static func".data]

/-- Test of smart_split.py line 360 on a stored stripped first line. -/
def isFuncLike (fl : Line) : Bool :=
  funcLikePrefixes.any (fun p => p.isPrefixOf fl)

/-- The six destination buckets of smart_split.py line 342. -/
structure Buckets where
  core : List MethodSpan
  sync : List MethodSpan
  utxo : List MethodSpan
  sending : List MethodSpan
  processing : List MethodSpan
  persistence : List MethodSpan
deriving Repr, DecidableEq

/-- Buckets with every category empty. -/
def emptyBuckets : Buckets :=
  { core := [], sync := [], utxo := [], sending := [], processing := [],
    persistence := [] }

/-- Append a span to the bucket named by a category string. -/
def pushBucket (b : Buckets) (cat : String) (m : MethodSpan) : Buckets :=
  if cat = "sync" then { b with sync := b.sync ++ [m] }
  else if cat = "utxo" then { b with utxo := b.utxo ++ [m] }
  else if cat = "sending" then { b with sending := b.sending ++ [m] }
  else if cat = "processing" then { b with processing := b.processing ++ [m] }
  else if cat = "persistence" then { b with persistence := b.persistence ++ [m] }
  else { b with core := b.core ++ [m] }

/-- First assignment loop of smart_split.py lines 344-350: CORE_KEEP
names go to core and the rest are categorized by name. -/
def initialAssign (ms : List MethodSpan) : Buckets :=
  ms.foldl
    (fun b m =>
      if CORE_KEEP.contains m.name then pushBucket b "core" m
      else pushBucket b (categorize m.name) m)
    emptyBuckets

/-- Remove the first occurrence of a span from every non-core bucket, the
inner removal loop of smart_split.py lines 365-367. -/
def removeFromCats (b : Buckets) (m : MethodSpan) : Buckets :=
  { b with
    sync := b.sync.erase m,
    utxo := b.utxo.erase m,
    sending := b.sending.erase m,
    processing := b.processing.erase m,
    persistence := b.persistence.erase m }

/-- Property pass of smart_split.py lines 354-367: spans outside
CORE_KEEP whose first line is not function-like are moved to core. -/
def propertyPass (ms : List MethodSpan) (b0 : Buckets) : Buckets :=
  ms.foldl
    (fun b m =>
      if CORE_KEEP.contains m.name then b
      else if isFuncLike m.firstLine then b
      else if b.core.contains m then b
      else removeFromCats { b with core := b.core ++ [m] } m)
    b0

/-- Insert a span into a list sorted by start line. -/
def insertSpan (m : MethodSpan) : List MethodSpan → List MethodSpan
  | [] => [m]
  | x :: xs => if m.start ≤ x.start then m :: x :: xs else x :: insertSpan m xs

/-- Sort spans by their start line, the per-category sort of
smart_split.py lines 370-371, as an insertion sort; span starts are
distinct so any sort by start agrees with the stable source sort. -/
def sortSpans (ms : List MethodSpan) : List MethodSpan :=
  ms.foldr insertSpan []

/-- Sort every bucket by original position. -/
def sortBuckets (b : Buckets) : Buckets :=
  { core := sortSpans b.core, sync := sortSpans b.sync,
    utxo := sortSpans b.utxo, sending := sortSpans b.sending,
    processing := sortSpans b.processing,
    persistence := sortSpans b.persistence }

/-- Complete categorization of smart_split.py STEP 3 and STEP 4 setup:
initial assignment, property pass, and the final sort. -/
def categorizedBuckets (ms : List MethodSpan) : Buckets :=
  sortBuckets (propertyPass ms (initialAssign ms))

/-- Lines of one span inside the body. -/
def spanLines (body : List Line) (m : MethodSpan) : List Line :=
  (body.take m.stop).drop m.start

/-- Class-opening line of ChatService. -/
def classLine : Line := "final class ChatService: ObservableObject \x7b".data

/-- MainActor attribute line re-added during reconstruction. -/
def mainActorLine : Line := "@MainActor".data

/-- Marker line that opens the supporting-types section. -/
def markTypesLine : Line := "// MARK: - Supporting Types".data

/-- build_file_content of smart_split.py lines 373-396 for an extension
file: comment header, imports, the extension opener, the span lines of
the category in order, and the closing brace. -/
def buildExtSS (catName : String) (body : List Line) (ms : List MethodSpan) :
    List Line :=
  [("// ChatService+" ++ catName ++ ".swift").data,
   "// Split from ChatService.swift for faster incremental builds".data, []]
  ++ v2ImportLines ++ [extHeaderLine]
  ++ (ms.map (spanLines body)).flatten
  ++ [[braceClose]]

/-- build_file_content of smart_split.py for the core file: original
header, the MainActor attribute, the class opener, the core spans, the
closing brace, a blank line, and the supporting types. -/
def buildCoreSS (hdr types body : List Line) (ms : List MethodSpan) :
    List Line :=
  hdr ++ [mainActorLine, classLine]
  ++ (ms.map (spanLines body)).flatten
  ++ [[braceClose], []] ++ types

/-- Backward scan of extract_extension_lines (smart_split.py lines 27-29):
from the last index, step back while the index is above start and the
line is not a lone closing brace. -/
def scanBackClose (ls : List Line) (start : Nat) : Nat → Nat
  | 0 => 0
  | e + 1 =>
      if e + 1 ≤ start then e + 1
      else if pstrip (ls.getD (e + 1) []) = [braceClose] then e + 1
      else scanBackClose ls start e

/-- extract_extension_lines of smart_split.py lines 16-30: the lines
strictly between the extension opener and the final closing-brace line. -/
def extract_extension_lines (ls : List Line) : List Line :=
  match ls.findIdx? (fun l => pstrip l == extHeaderLine) with
  | none => []
  | some i =>
      let start := i + 1
      let e := scanBackClose ls start (ls.length - 1)
      (ls.take e).drop start

/-- extract_extension_body of restore_chatservice.py lines 12-28: as the
smart_split variant but returning the empty list when the backward scan
meets the start index. -/
def restore_extract_extension_body (ls : List Line) : List Line :=
  match ls.findIdx? (fun l => pstrip l == extHeaderLine) with
  | none => []
  | some i =>
      let start := i + 1
      let e := scanBackClose ls start (ls.length - 1)
      if e ≤ start then [] else (ls.take e).drop start

/-- Line scan of extract_core_class_body (smart_split.py lines 34-41):
record one past the last line containing the class opener, and stop at
the first line containing the supporting-types marker. -/
def eccbScan : List Line → Nat → Option Nat → Option Nat × Option Nat
  | [], _, cs => (cs, none)
  | l :: ls, i, cs =>
      let cs2 := if hasInfix classLine l then some (i + 1) else cs
      if hasInfix markTypesLine l then (cs2, some i)
      else eccbScan ls (i + 1) cs2

/-- Backward walk over blank lines of smart_split.py lines 49-51: step
back while above class_start and blank. -/
def walkBackBlank (ls : List Line) (cs : Nat) : Nat → Nat
  | 0 => 0
  | e + 1 =>
      if e + 1 ≤ cs then e + 1
      else if (pstrip (ls.getD (e + 1) [])).isEmpty then walkBackBlank ls cs e
      else e + 1

/-- extract_core_class_body of smart_split.py lines 32-64: header before
the class opener, the class body, and the supporting types; none when no
class opener is found (the source raises).  A types marker on line zero
is falsy in the source and treated as absent. -/
def extract_core_class_body (ls : List Line) :
    Option (List Line × List Line × List Line) :=
  match eccbScan ls 0 none with
  | (none, _) => none
  | (some cs, some (ts + 1)) =>
      let e := walkBackBlank ls cs ts
      some (ls.take (cs - 1), (ls.take e).drop cs, ls.drop (ts + 1))
  | (some cs, _) => some (ls.take (cs - 1), ls.drop cs, [])

/-- Reassembly of smart_split.py STEP 1 (lines 69-95): the class body of
the core file followed by the extension bodies, in file order. -/
def reassembleBody (coreF pushF utxoF sendF procF persF : List Line) :
    Option (List Line) :=
  (extract_core_class_body coreF).map
    (fun t =>
      t.2.1 ++ extract_extension_lines pushF ++ extract_extension_lines utxoF
      ++ extract_extension_lines sendF ++ extract_extension_lines procF
      ++ extract_extension_lines persF)

/-- Split a body with smart_split.py and reassemble the class body from
the six generated files with the STEP 1 extraction functions. -/
def roundtripBody (hdr types body : List Line) : Option (List Line) :=
  let b := categorizedBuckets (find_methods body)
  reassembleBody (buildCoreSS hdr types body b.core)
    (buildExtSS "PushAndSync" body b.sync)
    (buildExtSS "UtxoProcessing" body b.utxo)
    (buildExtSS "Sending" body b.sending)
    (buildExtSS "Processing" body b.processing)
    (buildExtSS "Persistence" body b.persistence)

/-- Strip every line and keep the nonblank ones: the residue of a text
that no whitespace normalization can change. -/
def nonBlankStripped (ls : List Line) : List Line :=
  (ls.map pstrip).filter (fun l => !l.isEmpty)

/-- Input with a triple-quoted string literal that spans three lines and
contains an unbalanced opening brace. -/
def mlsWith : List Line :=
  ["let s = \"\"\"".data, [braceOpen], "\"\"\"".data]

/-- The same input with the string literal removed. -/
def mlsWithout : List Line :=
  ["let s = ".data, [], []]

/-- Claim C3, counterexample: the scanner state for a triple-quoted
string literal is not carried across line ends, so the brace inside the
multi-line literal of mlsWith is counted and the depth trace differs
from the trace of the same text with the literal removed, refuting both
the general sentence and the invariance property as stated. -/
theorem c3_counterexample :
    compute_brace_depths mlsWith = [0, 1, 1] ∧
    compute_brace_depths mlsWithout = [0, 0, 0] ∧
    compute_brace_depths mlsWith ≠ compute_brace_depths mlsWithout := by
  refine ⟨by decide, by decide, by decide⟩

/-- Body whose first line is blank, so no declaration starts at index
zero. -/
def gapBody : List Line :=
  [[], "func f() \x7b".data, "\x7d".data]

/-- Claim C4, counterexample: on a body starting with a blank line the
detected spans are a single span from line one to line three; the first
span does not start at zero, line zero belongs to no span, and the scan
returns normally because no gap check or BoundaryError exists in
smart_split.py. -/
theorem c4_counterexample :
    (find_methods gapBody).map (fun m => (m.start, m.stop)) = [(1, 3)] ∧
    (find_methods gapBody).head?.map MethodSpan.start ≠ some 0 := by
  refine ⟨by decide, by decide⟩

/-- Body holding exactly one initializer declaration. -/
def initBody : List Line :=
  ["init() \x7b".data, "\x7d".data]

/-- Claim C6, code bug: the span of an initializer gets the raw stripped
line as its name, because none of the name patterns of _extract_name
matches an init line; the name therefore never equals the CORE_KEEP
entry init, and the initializer is assigned to the persistence partition
instead of the primary one. -/
theorem c6_code_bug :
    (categorizedBuckets (find_methods initBody)).core = [] ∧
    (categorizedBuckets (find_methods initBody)).persistence.map
      (fun m => m.name) = ["init() \x7b"] := by
  refine ⟨by decide, by decide⟩

/-- Body with a documentation comment line directly above a function. -/
def docBody : List Line :=
  ["/// doc".data, "func f() \x7b".data, "\x7d".data]

/-- Claim C9, code bug: the boundary scan makes the documentation line a
span of its own, ending where the function span begins; the function
span starts below the documentation line, although the source comment on
the branch says the documentation line belongs to the next method. -/
theorem c9_code_bug :
    find_methods docBody =
      [{ start := 0, stop := 1, firstLine := "/// doc".data,
         name := "/// doc" },
       { start := 1, stop := 3, firstLine := "func f() \x7b".data,
         name := "f" }] := by
  decide

/-- Lines in which the only depth-one lines are code, not blank or
comment-only. -/
def unCleanLines : List Line :=
  ["class C \x7b".data, "let x = 1".data, "\x7d".data]

/-- Claim C7, counterexample: no line in the window is both clean and at
depth one, yet find_nearest_cut silently returns index one, a code line,
instead of failing; the cleanliness requirement of the claim does not
hold for the chosen cut. -/
theorem c7_counterexample :
    find_nearest_cut 1 (compute_brace_depths unCleanLines) unCleanLines =
      some 1 ∧
    isCleanLine (unCleanLines.getD 1 []) = false ∧
    (cutWindow 1 unCleanLines).all
      (fun i => !(isCleanLine (unCleanLines.getD i []) &&
        (compute_brace_depths unCleanLines).getD i 0 == 1)) = true := by
  refine ⟨by decide, by decide, by decide⟩

/-- Input that opens a block comment and never closes it. -/
def openComment : List Line :=
  ["/* x".data, [braceOpen]]

/-- Claim C2, counterexample: an unterminated block comment raises
nothing; the scanner returns the trace normally with the brace inside
the comment ignored, and the pipeline writes one output file and even
passes its balance verification. -/
theorem c2_counterexample :
    compute_brace_depths openComment = [0, 0] ∧
    (v2Run openComment).written.map Prod.fst = ["ChatService.swift"] ∧
    (v2Run openComment).verifyOk = true := by
  refine ⟨by decide, by decide, by decide⟩

/-- Two-function body whose first function is uncategorized and whose
second belongs to the sending category. -/
def twoFnBody : List Line :=
  ["func a() \x7b".data, "\x7d".data,
   "func sendMessage() \x7b".data, "\x7d".data]

/-- Header used for the round-trip counterexample. -/
def rtHdr : List Line := ["// hdr".data]

/-- Types section used for the round-trip counterexample. -/
def rtTypes : List Line := [markTypesLine]

/-- Claim C5, counterexample: splitting the two-function body and
reassembling the class body from the generated files yields the two
functions in category order, not source order; even after stripping and
dropping blank lines the reassembled text differs from the source, so no
whitespace normalization restores the round trip. -/
theorem c5_counterexample :
    roundtripBody rtHdr rtTypes twoFnBody =
      some ["func sendMessage() \x7b".data, "\x7d".data,
            "func a() \x7b".data, "\x7d".data] ∧
    (roundtripBody rtHdr rtTypes twoFnBody).map nonBlankStripped ≠
      some (nonBlankStripped twoFnBody) := by
  refine ⟨by decide, by decide⟩

/-- A keyword usable in a substitution rule: nonempty and starting with
a character that is neither whitespace nor the initial letter of the
access qualifier. -/
def goodKw : List Char → Bool
  | [] => false
  | c :: _ => !isPyWs c && !(c = 'p')

/-- A line whose text after the leading whitespace does not start with
the access qualifier; such a line is untouched by every whitespace-
anchored substitution rule. -/
def NotPrivLine (l : Line) : Prop :=
  ¬ privateKw <+: l.dropWhile isPyWs

/-- A line not starting with four spaces and the access qualifier; such
a line is untouched by every exact-indent substitution rule. -/
def NotPriv4 (l : Line) : Prop :=
  ¬ (indent4 ++ privateKw) <+: l

theorem subRuleWs_eq_of_notPriv (kw : List Char) (l : Line)
    (h : NotPrivLine l) : subRuleWs kw l = l := by
  simp only [subRuleWs]
  rw [if_neg]
  intro hc
  apply h
  have hp : privateKw ++ kw <+: l.dropWhile isPyWs := by
    simpa using hc.2
  exact (List.prefix_append privateKw kw).trans hp

theorem subRule4_eq_of_notPriv4 (kw : List Char) (l : Line)
    (h : NotPriv4 l) : subRule4 kw l = l := by
  simp only [subRule4]
  rw [if_neg]
  intro hc
  apply h
  have hp : indent4 ++ privateKw ++ kw <+: l := by
    simpa using hc
  exact (List.prefix_append (indent4 ++ privateKw) kw).trans
    (by simpa [List.append_assoc] using hp)

theorem privateKw_cons : privateKw = 'p' :: "rivate ".data := by decide

theorem dropWhile_ws_shape (kw t : List Char) (hk : goodKw kw = true) :
    ∀ ws, (∀ a ∈ ws, isPyWs a) →
      (ws ++ (kw ++ t)).dropWhile isPyWs = kw ++ t := by
  intro ws hws
  rw [List.dropWhile_append_of_pos hws]
  cases kw with
  | nil => simp [goodKw] at hk
  | cons c k =>
    rw [List.cons_append, List.dropWhile_cons]
    simp only [goodKw, Bool.and_eq_true, Bool.not_eq_true'] at hk
    simp [hk.1]

theorem not_priv_prefix_good (kw t : List Char) (hk : goodKw kw = true) :
    ¬ privateKw <+: kw ++ t := by
  cases kw with
  | nil => simp [goodKw] at hk
  | cons c k =>
    intro hp
    rw [privateKw_cons, List.cons_append, List.cons_prefix_cons] at hp
    simp only [goodKw, Bool.and_eq_true, Bool.not_eq_true'] at hk
    simp only [decide_eq_false_iff_not] at hk
    exact hk.2 hp.1.symm

theorem subRuleWs_out (kw : List Char) (l : Line) (hk : goodKw kw = true) :
    subRuleWs kw l = l ∨ NotPrivLine (subRuleWs kw l) := by
  by_cases hc : l.takeWhile isPyWs ≠ [] ∧
      (privateKw ++ kw).isPrefixOf (l.dropWhile isPyWs) = true
  · right
    have he : subRuleWs kw l =
        l.takeWhile isPyWs ++ kw ++
          (l.dropWhile isPyWs).drop (privateKw.length + kw.length) := by
      simp only [subRuleWs]
      rw [if_pos]
      exact ⟨hc.1, by simpa using hc.2⟩
    rw [he]
    intro hp
    rw [List.append_assoc,
      dropWhile_ws_shape kw _ hk (l.takeWhile isPyWs)
        (fun a ha => List.mem_takeWhile_imp ha)] at hp
    exact not_priv_prefix_good kw _ hk hp
  · left
    simp only [subRuleWs]
    rw [if_neg]
    intro hc2
    exact hc ⟨hc2.1, by simpa using hc2.2⟩

theorem subRule4_out (kw : List Char) (l : Line) (hk : goodKw kw = true) :
    subRule4 kw l = l ∨ NotPriv4 (subRule4 kw l) := by
  by_cases hc : (indent4 ++ privateKw ++ kw).isPrefixOf l = true
  · right
    have he : subRule4 kw l =
        indent4 ++ kw ++ l.drop
          (indent4.length + privateKw.length + kw.length) := by
      simp only [subRule4]
      rw [if_pos hc]
    rw [he]
    intro hp
    rw [List.append_assoc, List.prefix_append_right_inj] at hp
    exact not_priv_prefix_good kw _ hk hp
  · left
    simp only [subRule4]
    rw [if_neg]
    simpa using hc

theorem applyRules_of_notPriv (rules : List (List Char)) (l : Line)
    (h : NotPrivLine l) : applyRules rules l = l := by
  induction rules with
  | nil => rfl
  | cons k ks ih =>
    show applyRules ks (subRuleWs k l) = l
    rw [subRuleWs_eq_of_notPriv k l h]
    exact ih

theorem applyRules4_of_notPriv4 (rules : List (List Char)) (l : Line)
    (h : NotPriv4 l) : applyRules4 rules l = l := by
  induction rules with
  | nil => rfl
  | cons k ks ih =>
    show applyRules4 ks (subRule4 k l) = l
    rw [subRule4_eq_of_notPriv4 k l h]
    exact ih

theorem applyRules_out (rules : List (List Char)) (l : Line)
    (hk : ∀ k ∈ rules, goodKw k = true) :
    applyRules rules l = l ∨ NotPrivLine (applyRules rules l) := by
  induction rules generalizing l with
  | nil => exact Or.inl rfl
  | cons k ks ih =>
    have hgk : goodKw k = true := hk k (by simp)
    have hks : ∀ k2 ∈ ks, goodKw k2 = true :=
      fun k2 h2 => hk k2 (by simp [h2])
    rcases subRuleWs_out k l hgk with he | hn
    · have hstep : applyRules (k :: ks) l = applyRules ks l := by
        show applyRules ks (subRuleWs k l) = applyRules ks l
        rw [he]
      rw [hstep]
      exact ih l hks
    · have hstep : applyRules (k :: ks) l = subRuleWs k l := by
        show applyRules ks (subRuleWs k l) = subRuleWs k l
        exact applyRules_of_notPriv ks _ hn
      rw [hstep]
      exact Or.inr hn

theorem applyRules4_out (rules : List (List Char)) (l : Line)
    (hk : ∀ k ∈ rules, goodKw k = true) :
    applyRules4 rules l = l ∨ NotPriv4 (applyRules4 rules l) := by
  induction rules generalizing l with
  | nil => exact Or.inl rfl
  | cons k ks ih =>
    have hgk : goodKw k = true := hk k (by simp)
    have hks : ∀ k2 ∈ ks, goodKw k2 = true :=
      fun k2 h2 => hk k2 (by simp [h2])
    rcases subRule4_out k l hgk with he | hn
    · have hstep : applyRules4 (k :: ks) l = applyRules4 ks l := by
        show applyRules4 ks (subRule4 k l) = applyRules4 ks l
        rw [he]
      rw [hstep]
      exact ih l hks
    · have hstep : applyRules4 (k :: ks) l = subRule4 k l := by
        show applyRules4 ks (subRule4 k l) = subRule4 k l
        exact applyRules4_of_notPriv4 ks _ hn
      rw [hstep]
      exact Or.inr hn

theorem applyRules_idem (rules : List (List Char)) (l : Line)
    (hk : ∀ k ∈ rules, goodKw k = true) :
    applyRules rules (applyRules rules l) = applyRules rules l := by
  rcases applyRules_out rules l hk with he | hn
  · rw [he]
    exact he
  · exact applyRules_of_notPriv rules _ hn

theorem applyRules4_idem (rules : List (List Char)) (l : Line)
    (hk : ∀ k ∈ rules, goodKw k = true) :
    applyRules4 rules (applyRules4 rules l) = applyRules4 rules l := by
  rcases applyRules4_out rules l hk with he | hn
  · rw [he]
    exact he
  · exact applyRules4_of_notPriv4 rules _ hn

theorem spp_idem (l : Line) :
    strip_private_properties (strip_private_properties l) =
      strip_private_properties l := by
  by_cases hi : hasInfix privateSetMark l = true
  · have he : strip_private_properties l = l := by
      simp [strip_private_properties, hi]
    rw [he]
    exact he
  · have he : strip_private_properties l = applyRules v2PropKws l := by
      simp [strip_private_properties, hi]
    rw [he]
    by_cases h2 : hasInfix privateSetMark (applyRules v2PropKws l) = true
    · simp [strip_private_properties, h2]
    · have h3 : strip_private_properties (applyRules v2PropKws l) =
          applyRules v2PropKws (applyRules v2PropKws l) := by
        simp [strip_private_properties, h2]
      rw [h3]
      exact applyRules_idem v2PropKws l (by decide)

/-- A declaration line whose visibility qualifier is the compound
restricted-with-exception form: after the leading whitespace the line
starts with the private(set) marker. -/
def privateSetQualified (l : Line) : Prop :=
  privateSetMark <+: l.dropWhile isPyWs

theorem psq_notPriv (l : Line) (h : privateSetQualified l) :
    NotPrivLine l := by
  intro hp
  have hle : privateKw.length ≤ privateSetMark.length := by decide
  have := List.prefix_of_prefix_length_le hp h hle
  exact absurd this (by decide)

theorem psq_notPriv4 (l : Line) (h : privateSetQualified l) :
    NotPriv4 l := by
  intro hp
  rcases hp with ⟨t, ht⟩
  have hd : l.dropWhile isPyWs = privateKw ++ t := by
    rw [← ht, List.append_assoc,
      List.dropWhile_append_of_pos (by decide : ∀ a ∈ indent4, isPyWs a)]
    rw [privateKw_cons, List.cons_append, List.dropWhile_cons]
    simp [isPyWs]
  have h2 : privateSetMark <+: List.dropWhile isPyWs l := h
  rw [hd] at h2
  have h3 : privateKw <+: privateKw ++ t := List.prefix_append _ _
  have hle : privateKw.length ≤ privateSetMark.length := by decide
  have := List.prefix_of_prefix_length_le h3 h2 hle
  exact absurd this (by decide)

theorem hasInfix_of_prefix_dropWhile (pat : List Char) (l : Line)
    (h : pat <+: l.dropWhile isPyWs) : hasInfix pat l = true := by
  induction l with
  | nil =>
    simp only [List.dropWhile_nil, List.prefix_nil] at h
    simp [hasInfix, h]
  | cons c rest ih =>
    by_cases hc : isPyWs c = true
    · rw [List.dropWhile_cons, if_pos hc] at h
      have := ih h
      simp [hasInfix, this]
    · rw [List.dropWhile_cons, if_neg hc] at h
      have : pat.isPrefixOf (c :: rest) = true := by simpa using h
      simp [hasInfix, this]

theorem psq_spd_fixed (l : Line) (h : privateSetQualified l) :
    strip_private_from_declarations l = l :=
  applyRules_of_notPriv v2DeclKws l (psq_notPriv l h)

theorem psq_spp_fixed (l : Line) (h : privateSetQualified l) :
    strip_private_properties l = l := by
  have hm : privateSetMark <+: l.dropWhile isPyWs := h
  have := hasInfix_of_prefix_dropWhile privateSetMark l hm
  simp [strip_private_properties, this]

theorem psq_fpa_fixed (l : Line) (h : privateSetQualified l) :
    fix_private_access l = l :=
  applyRules4_of_notPriv4 fpaKws l (psq_notPriv4 l h)

/-- Claim C8: each visibility rewriter of the repository is idempotent
on every line, and a line whose qualifier is the compound
restricted-with-exception form private(set) is never altered by any
number of rewrite applications of any of the three rewriters. -/
theorem c8_rewriter_idempotent_and_private_set :
    (∀ l : Line,
      strip_private_from_declarations (strip_private_from_declarations l) =
        strip_private_from_declarations l ∧
      strip_private_properties (strip_private_properties l) =
        strip_private_properties l ∧
      fix_private_access (fix_private_access l) = fix_private_access l) ∧
    (∀ (l : Line) (n : Nat), privateSetQualified l →
      strip_private_from_declarations^[n] l = l ∧
      strip_private_properties^[n] l = l ∧
      fix_private_access^[n] l = l) := by
  constructor
  · intro l
    refine ⟨applyRules_idem v2DeclKws l (by decide), spp_idem l,
      applyRules4_idem fpaKws l (by decide)⟩
  · intro l n h
    exact ⟨Function.iterate_fixed (psq_spd_fixed l h) n,
      Function.iterate_fixed (psq_spp_fixed l h) n,
      Function.iterate_fixed (psq_fpa_fixed l h) n⟩

/-- Claim C8, witness: the theorem applied to a concrete private(set)
property line and three iterations. -/
theorem c8_witness :
    privateSetQualified "    private(set) var x".data ∧
    strip_private_from_declarations^[3] "    private(set) var x".data =
      "    private(set) var x".data ∧
    strip_private_properties "    private(set) var x".data =
      "    private(set) var x".data := by
  have h : privateSetQualified "    private(set) var x".data := by
    have hp : privateSetMark <+:
        ("    private(set) var x".data.dropWhile isPyWs) := by decide
    exact hp
  have h2 := c8_rewriter_idempotent_and_private_set.2
    "    private(set) var x".data 3 h
  exact ⟨h, h2.1, by
    have h3 := c8_rewriter_idempotent_and_private_set.2
      "    private(set) var x".data 1 h
    simpa using h3.2.1⟩

/-- Join lines into raw file content, each line followed by a newline. -/
def unlines (ls : List Line) : List Char :=
  (ls.map (fun l => l ++ ['\n'])).flatten

/-- Search of the multiline-anchored extension-opener regex of
reassemble_chatservice.py lines 17-21 over raw content: at every line
start the opener line is tested, matching either a full line or the very
end of the content; on a match the scan position just after the opener
line's newline is returned. -/
def findExtAux : List Char → Bool → Option (List Char)
  | [], _ => none
  | c :: rest, false => findExtAux rest (c = '\n')
  | c :: rest, true =>
      if (extHeaderLine ++ ['\n']).isPrefixOf (c :: rest) then
        some ((c :: rest).drop (extHeaderLine.length + 1))
      else if c :: rest = extHeaderLine then some []
      else findExtAux rest (c = '\n')

/-- Brace-matching consume loop of reassemble_chatservice.py lines
24-31: characters are consumed while the depth stays positive, the depth
reacting to braces. -/
def consumeClose : List Char → Int → List Char
  | [], _ => []
  | c :: rest, depth =>
      if depth ≤ 0 then []
      else
        c :: consumeClose rest
          (if c = braceOpen then depth + 1
           else if c = braceClose then depth - 1 else depth)

/-- extract_extension_body of reassemble_chatservice.py lines 15-34: the
content between the opener line and its matching closing brace; the
source slices to one before the final scan position, hence the dropLast. -/
def extract_extension_body_chars (content : List Char) : List Char :=
  match findExtAux content true with
  | none => []
  | some rest => (consumeClose rest 1).dropLast

theorem header_newline_prefix_iff (pat m : List Char) (r : List Char)
    (hp : '\n' ∉ pat) (hm : '\n' ∉ m) :
    (pat ++ ['\n']).isPrefixOf (m ++ '\n' :: r) = true ↔ m = pat := by
  induction pat generalizing m with
  | nil =>
    cases m with
    | nil => simp
    | cons c m2 =>
      simp only [List.nil_append, List.cons_append]
      constructor
      · intro h
        have : '\n' = c := by
          have h2 : ('\n' :: ([] : List Char)) <+: c :: (m2 ++ '\n' :: r) := by
            simpa using h
          exact (List.cons_prefix_cons.mp h2).1
        exact absurd this.symm (by intro hc; exact hm (by simp [hc]))
      · intro h; cases h
  | cons p pat2 ih =>
    cases m with
    | nil =>
      simp only [List.cons_append, List.nil_append]
      constructor
      · intro h
        have h2 : (p :: (pat2 ++ ['\n'])) <+: '\n' :: r := by simpa using h
        have := (List.cons_prefix_cons.mp h2).1
        exact absurd this (by intro hc; exact hp (by simp [hc]))
      · intro h; cases h
    | cons c m2 =>
      simp only [List.cons_append]
      have hp2 : '\n' ∉ pat2 := fun h => hp (by simp [h])
      have hm2 : '\n' ∉ m2 := fun h => hm (by simp [h])
      constructor
      · intro h
        have h2 : (p :: (pat2 ++ ['\n'])) <+: c :: (m2 ++ '\n' :: r) := by
          simpa using h
        rcases List.cons_prefix_cons.mp h2 with ⟨hc, htail⟩
        have := (ih m2 hp2 hm2).mp (by simpa using htail)
        simp [hc, this]
      · intro h
        injection h with h1 h2
        subst h1; subst h2
        simp

theorem findExtAux_false_step (m : List Char) (r : List Char)
    (hm : '\n' ∉ m) :
    findExtAux (m ++ '\n' :: r) false = findExtAux r true := by
  induction m with
  | nil =>
    show findExtAux r (decide ('\n' = '\n')) = findExtAux r true
    simp
  | cons c m2 ih =>
    have hc : ¬ c = '\n' := fun h => hm (by simp [h])
    have hm2 : '\n' ∉ m2 := fun h => hm (by simp [h])
    show findExtAux (m2 ++ '\n' :: r) (decide (c = '\n')) = findExtAux r true
    rw [decide_eq_false hc]
    exact ih hm2

theorem extHeader_newline_shape :
    extHeaderLine ++ ['\n'] =
      'e' :: ("xtension ChatService \x7b".data ++ ['\n']) := by decide

theorem findExtAux_line_step (m : List Char) (r : List Char)
    (hm : '\n' ∉ m) (hne : m ≠ extHeaderLine) :
    findExtAux (m ++ '\n' :: r) true = findExtAux r true := by
  have hpx : '\n' ∉ extHeaderLine := by decide
  cases m with
  | nil =>
    have e1 : ¬ ((extHeaderLine ++ ['\n']).isPrefixOf ('\n' :: r) = true) := by
      intro h
      have h2 := List.isPrefixOf_iff_prefix.mp h
      rw [extHeader_newline_shape] at h2
      have := (List.cons_prefix_cons.mp h2).1
      exact absurd this (by decide)
    have e2 : ¬ (('\n' :: r) = extHeaderLine) := by
      intro h
      exact hpx (by rw [← h]; simp)
    show findExtAux ('\n' :: r) true = findExtAux r true
    rw [show findExtAux ('\n' :: r) true =
        findExtAux r (decide ('\n' = '\n')) from by
      simp only [findExtAux]
      rw [if_neg e1, if_neg e2]]
    simp
  | cons c m2 =>
    have e1 : ¬ ((extHeaderLine ++ ['\n']).isPrefixOf
        (c :: (m2 ++ '\n' :: r)) = true) := by
      intro h
      have h2 : (extHeaderLine ++ ['\n']).isPrefixOf
          ((c :: m2) ++ '\n' :: r) = true := by simpa using h
      exact hne ((header_newline_prefix_iff extHeaderLine (c :: m2) r
        hpx hm).mp h2)
    have e2 : ¬ ((c :: (m2 ++ '\n' :: r)) = extHeaderLine) := by
      intro h
      exact hpx (by rw [← h]; simp)
    have hc : ¬ c = '\n' := fun h => hm (by simp [h])
    show findExtAux (c :: (m2 ++ '\n' :: r)) true = findExtAux r true
    rw [show findExtAux (c :: (m2 ++ '\n' :: r)) true =
        findExtAux (m2 ++ '\n' :: r) (decide (c = '\n')) from by
      simp only [findExtAux]
      rw [if_neg e1, if_neg e2]]
    rw [decide_eq_false hc]
    exact findExtAux_false_step m2 r (fun h => hm (by simp [h]))

theorem findExtAux_none (ls : List Line)
    (hnl : ∀ l ∈ ls, pstrip l ≠ extHeaderLine)
    (hnn : ∀ l ∈ ls, '\n' ∉ l) :
    findExtAux (unlines ls) true = none := by
  induction ls with
  | nil => simp [unlines, findExtAux]
  | cons l ls2 ih =>
    have h1 : unlines (l :: ls2) = l ++ '\n' :: unlines ls2 := by
      simp [unlines]
    rw [h1]
    have hm : '\n' ∉ l := hnn l (by simp)
    have hne : l ≠ extHeaderLine := by
      intro h
      apply hnl l (by simp)
      rw [h]
      decide
    rw [findExtAux_line_step l _ hm hne]
    exact ih (fun x hx => hnl x (by simp [hx])) (fun x hx => hnn x (by simp [hx]))

/-- Claim C10: when no input line strips to the extension opener, all
three extension-body extractors return an empty result instead of
raising, so the extracted body contributes zero lines to reassembly. -/
theorem c10_missing_extension_header (ls : List Line)
    (hnl : ∀ l ∈ ls, pstrip l ≠ extHeaderLine)
    (hnn : ∀ l ∈ ls, '\n' ∉ l) :
    extract_extension_lines ls = [] ∧
    restore_extract_extension_body ls = [] ∧
    extract_extension_body_chars (unlines ls) = [] := by
  have hfind : ls.findIdx? (fun l => pstrip l == extHeaderLine) = none := by
    rw [List.findIdx?_eq_none_iff]
    intro x hx
    simp only [beq_eq_false_iff_ne, ne_eq]
    exact hnl x hx
  refine ⟨?_, ?_, ?_⟩
  · simp [extract_extension_lines, hfind]
  · simp [restore_extract_extension_body, hfind]
  · simp [extract_extension_body_chars, findExtAux_none ls hnl hnn]

/-- Claim C10, witness: the theorem applied to a concrete file with no
extension opener line. -/
theorem c10_witness :
    extract_extension_lines ["import Foundation".data, "func f()".data] = [] ∧
    extract_extension_body_chars
      (unlines ["import Foundation".data, "func f()".data]) = [] := by
  have h := c10_missing_extension_header
    ["import Foundation".data, "func f()".data]
    (by intro l hl; fin_cases hl <;> decide)
    (by intro l hl; fin_cases hl <;> decide)
  exact ⟨h.1, h.2.2⟩

theorem fncAux_some_spec (target : Nat) (depths : List Int)
    (lines : List Line) (idxs : List Nat) : ∀ (b : Nat) (bd : Int),
    depths.getD b 0 = 1 →
    cutDist target b (isCleanLine (lines.getD b [])) ≤ bd →
    ∃ j, fncAux target depths lines idxs (some b) bd = some j ∧
      (j = b ∨ j ∈ idxs) ∧ depths.getD j 0 = 1 ∧
      cutDist target j (isCleanLine (lines.getD j [])) ≤ bd ∧
      ∀ i ∈ idxs, depths.getD i 0 = 1 →
        cutDist target j (isCleanLine (lines.getD j [])) ≤
          cutDist target i (isCleanLine (lines.getD i [])) := by
  induction idxs with
  | nil =>
    intro b bd hb hbd
    exact ⟨b, rfl, Or.inl rfl, hb, hbd, by simp⟩
  | cons i rest ih =>
    intro b bd hb hbd
    by_cases hd : depths.getD i 0 = 1
    · by_cases hlt : cutDist target i (isCleanLine (lines.getD i [])) < bd
      · have he : fncAux target depths lines (i :: rest) (some b) bd =
            fncAux target depths lines rest (some i)
              (cutDist target i (isCleanLine (lines.getD i []))) := by
          simp only [fncAux]
          rw [if_pos hd, if_pos hlt]
        rcases ih i _ hd le_rfl with ⟨j, hj1, hj2, hj3, hj4, hj5⟩
        refine ⟨j, by rw [he]; exact hj1, ?_, hj3, le_trans hj4 (le_of_lt hlt), ?_⟩
        · rcases hj2 with h | h
          · exact Or.inr (by simp [h])
          · exact Or.inr (by simp [h])
        · intro x hx hdx
          rcases List.mem_cons.mp hx with h | h
          · subst h; exact hj4
          · exact hj5 x h hdx
      · have he : fncAux target depths lines (i :: rest) (some b) bd =
            fncAux target depths lines rest (some b) bd := by
          simp only [fncAux]
          rw [if_pos hd, if_neg hlt]
        rcases ih b bd hb hbd with ⟨j, hj1, hj2, hj3, hj4, hj5⟩
        refine ⟨j, by rw [he]; exact hj1, ?_, hj3, hj4, ?_⟩
        · rcases hj2 with h | h
          · exact Or.inl h
          · exact Or.inr (by simp [h])
        · intro x hx hdx
          rcases List.mem_cons.mp hx with h | h
          · subst h
            exact le_trans hj4 (not_lt.mp hlt)
          · exact hj5 x h hdx
    · have he : fncAux target depths lines (i :: rest) (some b) bd =
          fncAux target depths lines rest (some b) bd := by
        simp only [fncAux]
        rw [if_neg hd]
      rcases ih b bd hb hbd with ⟨j, hj1, hj2, hj3, hj4, hj5⟩
      refine ⟨j, by rw [he]; exact hj1, ?_, hj3, hj4, ?_⟩
      · rcases hj2 with h | h
        · exact Or.inl h
        · exact Or.inr (by simp [h])
      · intro x hx hdx
        rcases List.mem_cons.mp hx with h | h
        · subst h; exact absurd hdx hd
        · exact hj5 x h hdx

theorem fncAux_none_spec (target : Nat) (depths : List Int)
    (lines : List Line) (idxs : List Nat) : ∀ (bd : Int),
    (∀ i ∈ idxs, depths.getD i 0 = 1 →
      cutDist target i (isCleanLine (lines.getD i [])) < bd) →
    (fncAux target depths lines idxs none bd = none ∧
      ∀ i ∈ idxs, ¬ depths.getD i 0 = 1) ∨
    (∃ j, fncAux target depths lines idxs none bd = some j ∧
      j ∈ idxs ∧ depths.getD j 0 = 1 ∧
      ∀ i ∈ idxs, depths.getD i 0 = 1 →
        cutDist target j (isCleanLine (lines.getD j [])) ≤
          cutDist target i (isCleanLine (lines.getD i []))) := by
  induction idxs with
  | nil =>
    intro bd _
    exact Or.inl ⟨rfl, by simp⟩
  | cons i rest ih =>
    intro bd hbd
    by_cases hd : depths.getD i 0 = 1
    · have hlt : cutDist target i (isCleanLine (lines.getD i [])) < bd :=
        hbd i (by simp) hd
      have he : fncAux target depths lines (i :: rest) none bd =
          fncAux target depths lines rest (some i)
            (cutDist target i (isCleanLine (lines.getD i []))) := by
        simp only [fncAux]
        rw [if_pos hd, if_pos hlt]
      rcases fncAux_some_spec target depths lines rest i _ hd le_rfl with
        ⟨j, hj1, hj2, hj3, hj4, hj5⟩
      refine Or.inr ⟨j, by rw [he]; exact hj1, ?_, hj3, ?_⟩
      · rcases hj2 with h | h
        · exact by simp [h]
        · exact by simp [h]
      · intro x hx hdx
        rcases List.mem_cons.mp hx with h | h
        · subst h; exact hj4
        · exact hj5 x h hdx
    · have he : fncAux target depths lines (i :: rest) none bd =
          fncAux target depths lines rest none bd := by
        simp only [fncAux]
        rw [if_neg hd]
      rcases ih bd (fun x hx hdx => hbd x (by simp [hx]) hdx) with
        ⟨h1, h2⟩ | ⟨j, hj1, hj2, hj3, hj4⟩
      · refine Or.inl ⟨by rw [he]; exact h1, ?_⟩
        intro x hx
        rcases List.mem_cons.mp hx with h | h
        · subst h; exact hd
        · exact h2 x h
      · refine Or.inr ⟨j, by rw [he]; exact hj1, by simp [hj2], hj3, ?_⟩
        intro x hx hdx
        rcases List.mem_cons.mp hx with h | h
        · subst h; exact absurd hdx hd
        · exact hj4 x h hdx

theorem cutWindow_dist_small (target : Nat) (lines : List Line) :
    ∀ i ∈ cutWindow target lines, ∀ c : Bool,
      cutDist target i c < cutDistInit := by
  intro i hi c
  have hmem := List.mem_range'_1.mp hi
  have h1 : target - 30 ≤ i := hmem.1
  have h2 : i < (target - 30) + (min lines.length (target + 30) - (target - 30)) :=
    hmem.2
  have h3 : i ≤ target + 30 := by omega
  have h4 : target ≤ i + 30 := by omega
  have habs : (((i : Int) - (target : Int)).natAbs : Int) ≤ 30 := by omega
  unfold cutDist cutDistInit
  cases c
  · rw [if_neg Bool.false_ne_true]
    omega
  · rw [if_pos rfl]
    omega

/-- Claim C7: characterization of the depth-target cut strategy as the
code implements it.  The chosen cut point is the depth-one line of the
bounded window minimizing the adjusted doubled distance, in which blank
or comment-only lines receive only a half-line preference; a non-clean
depth-one line is accepted, and when the window holds no depth-one line
the function returns none (the caller prints a warning and skips the
cut) instead of raising a BoundaryError. -/
theorem c7_amended_cut_characterization (target : Nat) (depths : List Int)
    (lines : List Line) :
    (find_nearest_cut target depths lines = none ↔
      ∀ i ∈ cutWindow target lines, ¬ depths.getD i 0 = 1) ∧
    (∀ j, find_nearest_cut target depths lines = some j →
      j ∈ cutWindow target lines ∧ depths.getD j 0 = 1 ∧
      ∀ i ∈ cutWindow target lines, depths.getD i 0 = 1 →
        cutDist target j (isCleanLine (lines.getD j [])) ≤
          cutDist target i (isCleanLine (lines.getD i []))) := by
  have hbd : ∀ i ∈ cutWindow target lines, depths.getD i 0 = 1 →
      cutDist target i (isCleanLine (lines.getD i [])) < cutDistInit :=
    fun i hi _ => cutWindow_dist_small target lines i hi _
  rcases fncAux_none_spec target depths lines (cutWindow target lines)
      cutDistInit hbd with ⟨h1, h2⟩ | ⟨j, hj1, hj2, hj3, hj4⟩
  · constructor
    · constructor
      · intro _; exact h2
      · intro _; exact h1
    · intro j hj
      rw [show find_nearest_cut target depths lines =
        fncAux target depths lines (cutWindow target lines) none cutDistInit
        from rfl] at hj
      rw [h1] at hj
      cases hj
  · constructor
    · constructor
      · intro h
        rw [show find_nearest_cut target depths lines =
          fncAux target depths lines (cutWindow target lines) none cutDistInit
          from rfl] at h
        rw [hj1] at h
        cases h
      · intro h
        exact absurd hj3 (h j hj2)
    · intro j2 hj2eq
      have : j2 = j := by
        rw [show find_nearest_cut target depths lines =
          fncAux target depths lines (cutWindow target lines) none cutDistInit
          from rfl] at hj2eq
        rw [hj1] at hj2eq
        injection hj2eq with h
        exact h.symm
      subst this
      exact ⟨hj2, hj3, hj4⟩

theorem hasStarSlash_cons_false (c : Char) (rest : List Char)
    (h : hasStarSlash (c :: rest) = false) : hasStarSlash rest = false := by
  by_cases hc : c = '*'
  · cases rest with
    | nil => simp [hasStarSlash]
    | cons b bs =>
      by_cases hb : b = '/'
      · subst hc; subst hb
        simp [hasStarSlash] at h
      · rw [hasStarSlash.eq_2] at h
        · exact h
        · intro tail _ h2
          injection h2 with hb2 _
          exact hb hb2
  · rw [hasStarSlash.eq_2] at h
    · exact h
    · intro tail h1 _
      exact hc h1

set_option maxHeartbeats 1000000 in
theorem scanLineM_inBC_frozen (l : List Char) :
    ∀ d : Int, hasStarSlash l = false →
      scanLineM l ScanMode.inBC d = (d, true) := by
  induction l with
  | nil => intro d _; rfl
  | cons c rest ih =>
    intro d h
    have hrest : hasStarSlash rest = false := hasStarSlash_cons_false c rest h
    by_cases hc : c = '*'
    · cases rest with
      | nil =>
        subst hc
        rw [scanLineM.eq_3]
        · exact ih d hrest
        · intro r1 _ h2
          cases h2
      | cons b bs =>
        by_cases hb : b = '/'
        · subst hc; subst hb
          simp [hasStarSlash] at h
        · rw [scanLineM.eq_3]
          · exact ih d hrest
          · intro r1 _ h2
            injection h2 with hb2 _
            exact hb hb2
    · rw [scanLineM.eq_3]
      · exact ih d hrest
      · intro r1 h1 _
        exact hc h1

theorem frozenDepthsAux (ls : List Line) :
    ∀ d : Int, (∀ l ∈ ls, hasStarSlash l = false) →
      computeBraceDepthsAux ls d true = List.replicate ls.length d ∧
      scanLinesState ls d true = (d, true) := by
  induction ls with
  | nil => intro d _; exact ⟨rfl, rfl⟩
  | cons l ls2 ih =>
    intro d h
    have hl : hasStarSlash l = false := h l (by simp)
    have hstep : scanLine l d true = (d, true) :=
      scanLineM_inBC_frozen l d hl
    have h2 := ih d (fun x hx => h x (by simp [hx]))
    constructor
    · show (scanLine l d true).1 ::
        computeBraceDepthsAux ls2 (scanLine l d true).1
          (scanLine l d true).2 = _
      rw [hstep]
      show d :: computeBraceDepthsAux ls2 d true = _
      rw [h2.1]
      rfl
    · show scanLinesState ls2 (scanLine l d true).1 (scanLine l d true).2 = _
      rw [hstep]
      exact h2.2

/-- Claim C2: corrected behavior of the scanner on an unterminated block
comment.  No error is raised; once a line leaves the scanner inside a
block comment, every following line without the closing marker keeps the
depth unchanged (braces inside the comment are ignored) and the final
state still carries the open comment to end of input.  The pipeline then
proceeds normally, as the counterexample shows by writing a file. -/
theorem c2_amended_unterminated_comment_silent (l : Line) (ls : List Line)
    (d : Int) (hopen : (scanLine l d false).2 = true)
    (hnoclose : ∀ l2 ∈ ls, hasStarSlash l2 = false) :
    computeBraceDepthsAux (l :: ls) d false =
      (scanLine l d false).1 ::
        List.replicate ls.length (scanLine l d false).1 ∧
    (scanLinesState (l :: ls) d false).2 = true := by
  have h2 := frozenDepthsAux ls (scanLine l d false).1 hnoclose
  constructor
  · show (scanLine l d false).1 ::
      computeBraceDepthsAux ls (scanLine l d false).1
        (scanLine l d false).2 = _
    rw [hopen, h2.1]
  · show (scanLinesState ls (scanLine l d false).1
      (scanLine l d false).2).2 = true
    rw [hopen, h2.2]

/-- Claim C2, witness: the amended theorem applied to a concrete
unterminated comment followed by a brace line. -/
theorem c2_amended_witness :
    (scanLine "/* open".data 0 false).2 = true ∧
    computeBraceDepthsAux ("/* open".data :: [[braceOpen]]) 0 false =
      [0, 0] := by
  have hopen : (scanLine "/* open".data 0 false).2 = true := by decide
  have h := c2_amended_unterminated_comment_silent "/* open".data
    [[braceOpen]] 0 hopen (by intro x hx; fin_cases hx; decide)
  refine ⟨hopen, ?_⟩
  rw [h.1]
  decide

/-- First line index at naive depth zero that opens a declaration; the
index where the boundary scan opens its first span. -/
def firstTriggerAux : List Line → Nat → Int → Option Nat
  | [], _, _ => none
  | l :: ls, n, d =>
      if d == 0 && is_decl (pstrip l) then some n
      else firstTriggerAux ls (n + 1) (d + braceNet l)

/-- First declaration trigger of a body, from the initial state. -/
def firstTriggerIdx (body : List Line) : Option Nat :=
  firstTriggerAux body 0 0

/-- Adjacency relation between consecutive spans. -/
def spanAdj (a b : MethodSpan) : Prop := a.stop = b.start

theorem scanBodyAux_some_shape (ls : List Line) :
    ∀ (n : Nat) (d : Int) (st : Nat × Line) (acc : List MethodSpan),
    ∃ m tail, scanBodyAux ls n d (some st) acc = acc ++ m :: tail ∧
      m.start = st.1 := by
  induction ls with
  | nil =>
    intro n d st acc
    exact ⟨closeSpan st n, [], rfl, rfl⟩
  | cons l ls2 ih =>
    intro n d st acc
    by_cases ht : (d == 0 && is_decl (pstrip l)) = true
    · have he : scanBodyAux (l :: ls2) n d (some st) acc =
          scanBodyAux ls2 (n + 1) (d + braceNet l) (some (n, l))
            (acc ++ [closeSpan st n]) := by
        simp only [scanBodyAux]
        rw [if_pos ht]
      rcases ih (n + 1) (d + braceNet l) (n, l) (acc ++ [closeSpan st n]) with
        ⟨m2, tail2, hm2, _⟩
      refine ⟨closeSpan st n, m2 :: tail2, ?_, rfl⟩
      rw [he, hm2]
      simp
    · have he : scanBodyAux (l :: ls2) n d (some st) acc =
          scanBodyAux ls2 (n + 1) (d + braceNet l) (some st) acc := by
        simp only [scanBodyAux]
        rw [if_neg ht]
      rw [he]
      exact ih (n + 1) (d + braceNet l) st acc

theorem scanBodyAux_head_none (ls : List Line) :
    ∀ (n : Nat) (d : Int),
    (scanBodyAux ls n d none []).head?.map MethodSpan.start =
      firstTriggerAux ls n d := by
  induction ls with
  | nil => intro n d; rfl
  | cons l ls2 ih =>
    intro n d
    by_cases ht : (d == 0 && is_decl (pstrip l)) = true
    · have he : scanBodyAux (l :: ls2) n d none [] =
          scanBodyAux ls2 (n + 1) (d + braceNet l) (some (n, l)) [] := by
        simp only [scanBodyAux]
        rw [if_pos ht]
      rcases scanBodyAux_some_shape ls2 (n + 1) (d + braceNet l) (n, l) []
        with ⟨m, tail, hm, hstart⟩
      rw [he, hm]
      simp only [List.nil_append, List.head?_cons]
      rw [show Option.map MethodSpan.start (some m) = some m.start from rfl,
        hstart]
      show some n = firstTriggerAux (l :: ls2) n d
      simp only [firstTriggerAux]
      rw [if_pos ht]
    · have he : scanBodyAux (l :: ls2) n d none [] =
          scanBodyAux ls2 (n + 1) (d + braceNet l) none [] := by
        simp only [scanBodyAux]
        rw [if_neg ht]
      rw [he, ih]
      show _ = firstTriggerAux (l :: ls2) n d
      simp only [firstTriggerAux]
      rw [if_neg ht]

theorem scanBodyAux_last_stop (ls : List Line) :
    ∀ (n : Nat) (d : Int) (cur : Option (Nat × Line)) (acc : List MethodSpan),
    (cur = none → acc = []) →
    ∀ m, (scanBodyAux ls n d cur acc).getLast? = some m →
      m.stop = n + ls.length := by
  induction ls with
  | nil =>
    intro n d cur acc hinv m hm
    cases cur with
    | none =>
      rw [hinv rfl] at hm
      cases hm
    | some st =>
      have hshape : scanBodyAux [] n d (some st) acc =
          acc ++ [closeSpan st n] := rfl
      rw [hshape] at hm
      simp only [List.getLast?_append, List.getLast?_singleton,
        Option.or_some] at hm
      injection hm with hm
      rw [← hm]
      rfl
  | cons l ls2 ih =>
    intro n d cur acc hinv m hm
    by_cases ht : (d == 0 && is_decl (pstrip l)) = true
    · cases cur with
      | none =>
        have he : scanBodyAux (l :: ls2) n d none acc =
            scanBodyAux ls2 (n + 1) (d + braceNet l) (some (n, l)) acc := by
          simp only [scanBodyAux]
          rw [if_pos ht]
        rw [he] at hm
        have := ih (n + 1) (d + braceNet l) (some (n, l)) acc
          (by intro h; cases h) m hm
        rw [this]
        simp only [List.length_cons]
        omega
      | some st =>
        have he : scanBodyAux (l :: ls2) n d (some st) acc =
            scanBodyAux ls2 (n + 1) (d + braceNet l) (some (n, l))
              (acc ++ [closeSpan st n]) := by
          simp only [scanBodyAux]
          rw [if_pos ht]
        rw [he] at hm
        have := ih (n + 1) (d + braceNet l) (some (n, l)) _
          (by intro h; cases h) m hm
        rw [this]
        simp only [List.length_cons]
        omega
    · have he : scanBodyAux (l :: ls2) n d cur acc =
          scanBodyAux ls2 (n + 1) (d + braceNet l) cur acc := by
        simp only [scanBodyAux]
        rw [if_neg ht]
      rw [he] at hm
      have := ih (n + 1) (d + braceNet l) cur acc hinv m hm
      rw [this]
      simp only [List.length_cons]
      omega

theorem scanBodyAux_chain (ls : List Line) :
    ∀ (n : Nat) (d : Int) (cur : Option (Nat × Line)) (acc : List MethodSpan),
    (cur = none → acc = []) →
    List.Chain' spanAdj acc →
    (∀ st m, cur = some st → acc.getLast? = some m → m.stop = st.1) →
    List.Chain' spanAdj (scanBodyAux ls n d cur acc) := by
  induction ls with
  | nil =>
    intro n d cur acc hinv hch hlink
    cases cur with
    | none =>
      rw [hinv rfl]
      exact List.chain'_nil
    | some st =>
      show List.Chain' spanAdj (acc ++ [closeSpan st n])
      rw [List.chain'_append]
      refine ⟨hch, List.chain'_singleton _, ?_⟩
      intro x hx y hy
      simp only [List.head?_cons, Option.mem_def, Option.some.injEq] at hy
      subst hy
      exact hlink st x rfl (Option.mem_def.mp hx)
  | cons l ls2 ih =>
    intro n d cur acc hinv hch hlink
    by_cases ht : (d == 0 && is_decl (pstrip l)) = true
    · cases cur with
      | none =>
        have he : scanBodyAux (l :: ls2) n d none acc =
            scanBodyAux ls2 (n + 1) (d + braceNet l) (some (n, l)) acc := by
          simp only [scanBodyAux]
          rw [if_pos ht]
        rw [he]
        refine ih (n + 1) (d + braceNet l) (some (n, l)) acc
          (by intro h; cases h) hch ?_
        intro st m hst hm
        rw [hinv rfl] at hm
        cases hm
      | some st =>
        have he : scanBodyAux (l :: ls2) n d (some st) acc =
            scanBodyAux ls2 (n + 1) (d + braceNet l) (some (n, l))
              (acc ++ [closeSpan st n]) := by
          simp only [scanBodyAux]
          rw [if_pos ht]
        rw [he]
        refine ih (n + 1) (d + braceNet l) (some (n, l)) _
          (by intro h; cases h) ?_ ?_
        · rw [List.chain'_append]
          refine ⟨hch, List.chain'_singleton _, ?_⟩
          intro x hx y hy
          simp only [List.head?_cons, Option.mem_def, Option.some.injEq] at hy
          subst hy
          exact hlink st x rfl (Option.mem_def.mp hx)
        · intro st2 m hst2 hm
          injection hst2 with hst2
          subst hst2
          simp only [List.getLast?_append, List.getLast?_singleton,
            Option.or_some] at hm
          injection hm with hm
          rw [← hm]
          rfl
    · have he : scanBodyAux (l :: ls2) n d cur acc =
          scanBodyAux ls2 (n + 1) (d + braceNet l) cur acc := by
        simp only [scanBodyAux]
        rw [if_neg ht]
      rw [he]
      exact ih (n + 1) (d + braceNet l) cur acc hinv hch hlink

/-- Claim C4: corrected span structure of the boundary scan.  The
detected spans are chained exactly (each span's end is the next span's
start), the last span ends at the body length, and the first span starts
at the first declaration-opening line at naive depth zero, which is not
necessarily zero; lines before it belong to no span and no BoundaryError
or coverage check exists. -/
theorem c4_amended_span_chain (body : List Line) :
    List.Chain' spanAdj (find_methods body) ∧
    (∀ m, (find_methods body).getLast? = some m → m.stop = body.length) ∧
    (find_methods body).head?.map MethodSpan.start = firstTriggerIdx body := by
  refine ⟨?_, ?_, ?_⟩
  · exact scanBodyAux_chain body 0 0 none [] (fun _ => rfl)
      List.chain'_nil (by intro st m h1 _; cases h1)
  · intro m hm
    have := scanBodyAux_last_stop body 0 0 none [] (fun _ => rfl) m hm
    simpa using this
  · exact scanBodyAux_head_none body 0 0

/-- Claim C4, witness: the amended theorem applied to a two-declaration
body, instantiating the last-span implication. -/
theorem c4_amended_witness :
    (find_methods ["func f() \x7b".data, "\x7d".data, "var x = 1".data]).getLast? =
      some { start := 2, stop := 3, firstLine := "var x = 1".data,
             name := "x" } ∧
    ({ start := 2, stop := 3, firstLine := "var x = 1".data,
       name := "x" } : MethodSpan).stop = 3 := by
  refine ⟨by decide, ?_⟩
  exact (c4_amended_span_chain
    ["func f() \x7b".data, "\x7d".data, "var x = 1".data]).2.1 _ (by decide)

theorem skipStringLit (mid : List Char) :
    ∀ (post : List Char) (d : Int), '"' ∉ mid → '\\' ∉ mid →
      scanLineM (mid ++ '"' :: post) ScanMode.inStr d =
        scanLineM post ScanMode.normal d := by
  induction mid with
  | nil =>
    intro post d _ _
    rw [List.nil_append, scanLineM.eq_5]
  | cons c mid2 ih =>
    intro post d hq hbs
    have hcq : ¬ c = '"' := fun h => hq (by simp [h])
    have hcb : ¬ c = '\\' := fun h => hbs (by simp [h])
    show scanLineM (c :: (mid2 ++ '"' :: post)) ScanMode.inStr d = _
    rw [scanLineM.eq_6]
    · exact ih post d (fun h => hq (by simp [h])) (fun h => hbs (by simp [h]))
    · intro h1 r1 hc _
      exact hcb hc
    · intro hc
      exact hcq hc

theorem literalStep (mid : List Char) (post : List Char) (d : Int)
    (hne : mid ≠ []) (hq : '"' ∉ mid) (hbs : '\\' ∉ mid) :
    scanLineM ('"' :: (mid ++ '"' :: post)) ScanMode.normal d =
      scanLineM post ScanMode.normal d := by
  cases mid with
  | nil => exact absurd rfl hne
  | cons m0 mid2 =>
    have hm0 : ¬ m0 = '"' := fun h => hq (by simp [h])
    rw [scanLineM.eq_13]
    · rw [List.cons_append]
      exact skipStringLit (m0 :: mid2) post d hq hbs
    · intro r1 hr
      rw [List.cons_append] at hr
      injection hr with h1 _
      exact hm0 h1

theorem computeBraceDepthsAux_append (pre : List Line) :
    ∀ (rest : List Line) (d : Int) (bc : Bool),
      computeBraceDepthsAux (pre ++ rest) d bc =
        computeBraceDepthsAux pre d bc ++
          computeBraceDepthsAux rest (scanLinesState pre d bc).1
            (scanLinesState pre d bc).2 := by
  induction pre with
  | nil => intro rest d bc; rfl
  | cons l ls ih =>
    intro rest d bc
    show (scanLine l d bc).1 ::
        computeBraceDepthsAux (ls ++ rest) (scanLine l d bc).1
          (scanLine l d bc).2 = _
    rw [ih]
    rfl

/-- Claim C3: corrected string-awareness of the scanner.  When the
scanner reaches a line in normal state and the prefix of the line scans
in normal mode, inserting a single-line string literal (with no inner
quote or backslash) into the line leaves the whole depth trace
unchanged: braces inside such a literal are ignored.  The counterexample
shows this fails for a literal spanning several lines, whose string
state is not carried across line ends. -/
theorem c3_amended_single_line_literal_invariant (pre post : List Line)
    (lpre lpost mid : List Char) (d0 d1 : Int)
    (hstate : scanLinesState pre 0 false = (d0, false))
    (hpre : ∀ rest, scanLineM (lpre ++ rest) ScanMode.normal d0 =
      scanLineM rest ScanMode.normal d1)
    (hne : mid ≠ []) (hq : '"' ∉ mid) (hbs : '\\' ∉ mid) :
    compute_brace_depths
        (pre ++ (lpre ++ '"' :: (mid ++ '"' :: lpost)) :: post) =
      compute_brace_depths (pre ++ (lpre ++ lpost) :: post) := by
  have hline : scanLine (lpre ++ '"' :: (mid ++ '"' :: lpost)) d0 false =
      scanLine (lpre ++ lpost) d0 false := by
    show scanLineM (lpre ++ '"' :: (mid ++ '"' :: lpost))
        ScanMode.normal d0 =
      scanLineM (lpre ++ lpost) ScanMode.normal d0
    rw [hpre, hpre]
    exact literalStep mid lpost d1 hne hq hbs
  unfold compute_brace_depths
  rw [computeBraceDepthsAux_append, computeBraceDepthsAux_append, hstate]
  congr 1
  show (scanLine _ d0 false).1 :: computeBraceDepthsAux post
      (scanLine _ d0 false).1 (scanLine _ d0 false).2 = _
  rw [hline]
  rfl

/-- Claim C3, witness: the amended theorem applied to a one-line file
holding only a literal with an unbalanced brace inside. -/
theorem c3_amended_witness :
    compute_brace_depths [('"' :: (['x', braceOpen] ++ '"' :: []))] =
      compute_brace_depths [([] : Line)] := by
  have h := c3_amended_single_line_literal_invariant [] [] [] []
    ['x', braceOpen] 0 0 rfl (fun rest => rfl) (by decide) (by decide)
    (by decide)
  simpa using h

theorem getD_append_left_at (l1 l2 : List Line) (n : Nat) (h : n < l1.length) :
    (l1 ++ l2).getD n [] = l1.getD n [] := by
  rw [List.getD_eq_getElem?_getD, List.getD_eq_getElem?_getD,
    List.getElem?_append_left h]

theorem getD_append_right_at (l1 l2 : List Line) (n : Nat)
    (h : l1.length ≤ n) :
    (l1 ++ l2).getD n [] = l2.getD (n - l1.length) [] := by
  rw [List.getD_eq_getElem?_getD, List.getD_eq_getElem?_getD,
    List.getElem?_append_right h]

theorem extract_ext_shape (preLines spanlines : List Line)
    (hpre : ∀ l ∈ preLines, pstrip l ≠ extHeaderLine) :
    extract_extension_lines
      (preLines ++ extHeaderLine :: (spanlines ++ [[braceClose]])) =
      spanlines := by
  set L := preLines ++ extHeaderLine :: (spanlines ++ [[braceClose]]) with hL
  have hfind : L.findIdx? (fun l => pstrip l == extHeaderLine) =
      some preLines.length := by
    rw [hL, List.findIdx?_append]
    have h1 : preLines.findIdx? (fun l => pstrip l == extHeaderLine) =
        none := by
      rw [List.findIdx?_eq_none_iff]
      intro x hx
      simpa using hpre x hx
    rw [h1, Option.none_or]
    have h2 : (extHeaderLine :: (spanlines ++ [[braceClose]])).findIdx?
        (fun l => pstrip l == extHeaderLine) = some 0 := by
      rw [List.findIdx?_cons, if_pos (by decide)]
    rw [h2]
    simp
  have hlen : L.length = preLines.length + spanlines.length + 2 := by
    rw [hL]
    simp
    omega
  have hback : scanBackClose L (preLines.length + 1) (L.length - 1) =
      preLines.length + spanlines.length + 1 := by
    rw [hlen]
    show scanBackClose L (preLines.length + 1)
      (preLines.length + spanlines.length + 2 - 1) = _
    have : preLines.length + spanlines.length + 2 - 1 =
        (preLines.length + spanlines.length) + 1 := by omega
    rw [this]
    show (if preLines.length + spanlines.length + 1 ≤ preLines.length + 1
        then preLines.length + spanlines.length + 1
        else if pstrip (L.getD (preLines.length + spanlines.length + 1) []) =
            [braceClose]
          then preLines.length + spanlines.length + 1
          else scanBackClose L (preLines.length + 1)
            (preLines.length + spanlines.length)) = _
    by_cases hsp : spanlines.length = 0
    · rw [if_pos (by omega)]
    · rw [if_neg (by omega)]
      have hget : L.getD (preLines.length + spanlines.length + 1) [] =
          [braceClose] := by
        rw [hL, getD_append_right_at _ _ _ (by omega)]
        have : preLines.length + spanlines.length + 1 - preLines.length =
            spanlines.length + 1 := by omega
        rw [this]
        show (extHeaderLine :: (spanlines ++ [[braceClose]])).getD
          (spanlines.length + 1) [] = [braceClose]
        rw [List.getD_cons_succ,
          getD_append_right_at _ _ _ (by omega)]
        simp
      rw [hget, if_pos (by decide)]
  show (match L.findIdx? (fun l => pstrip l == extHeaderLine) with
    | none => ([] : List Line)
    | some i => (L.take (scanBackClose L (i + 1) (L.length - 1))).drop
        (i + 1)) = spanlines
  rw [hfind]
  show (L.take (scanBackClose L (preLines.length + 1) (L.length - 1))).drop
      (preLines.length + 1) = spanlines
  rw [hback]
  have htake : L.take (preLines.length + spanlines.length + 1) =
      (preLines ++ [extHeaderLine]) ++ spanlines := by
    rw [hL,
      show preLines ++ extHeaderLine :: (spanlines ++ [[braceClose]]) =
        ((preLines ++ [extHeaderLine]) ++ spanlines) ++ [[braceClose]] from
        by simp]
    exact List.take_left' (by simp; omega)
  rw [htake]
  exact List.drop_left' (by simp)

theorem eccbScan_skip (ls : List Line) :
    ∀ (rest : List Line) (i : Nat) (cs : Option Nat),
    (∀ l ∈ ls, hasInfix classLine l = false ∧
      hasInfix markTypesLine l = false) →
    eccbScan (ls ++ rest) i cs = eccbScan rest (i + ls.length) cs := by
  induction ls with
  | nil => intro rest i cs _; simp
  | cons l ls2 ih =>
    intro rest i cs h
    have hl := h l (by simp)
    show eccbScan (l :: (ls2 ++ rest)) i cs = _
    simp only [eccbScan, hl.1, hl.2, Bool.false_eq_true, if_false]
    rw [ih rest (i + 1) cs (fun x hx => h x (by simp [hx]))]
    congr 1
    simp
    omega

theorem mem_spanLines_mem_body (body : List Line) (ms : List MethodSpan)
    (l : Line) (h : l ∈ (ms.map (spanLines body)).flatten) : l ∈ body := by
  rcases List.mem_flatten.mp h with ⟨sl, hsl, hl⟩
  rcases List.mem_map.mp hsl with ⟨m, _, hm⟩
  rw [← hm] at hl
  exact List.mem_of_mem_take (List.mem_of_mem_drop hl)

theorem extract_core_shape (hdr types body : List Line)
    (ms : List MethodSpan) (tr : List Line)
    (htypes : types = markTypesLine :: tr)
    (hhdr : ∀ l ∈ hdr, hasInfix classLine l = false ∧
      hasInfix markTypesLine l = false)
    (hbody : ∀ l ∈ body, hasInfix classLine l = false ∧
      hasInfix markTypesLine l = false) :
    extract_core_class_body (buildCoreSS hdr types body ms) =
      some (hdr ++ [mainActorLine],
        ((ms.map (spanLines body)).flatten, types)) := by
  set S := (ms.map (spanLines body)).flatten with hS
  have hSclean : ∀ l ∈ S, hasInfix classLine l = false ∧
      hasInfix markTypesLine l = false :=
    fun l hl => hbody l (mem_spanLines_mem_body body ms l hl)
  have hbuilt : buildCoreSS hdr types body ms =
      hdr ++ (mainActorLine :: classLine :: (S ++
        ([braceClose] :: [] :: (markTypesLine :: tr)))) := by
    rw [htypes]
    simp [buildCoreSS, hS]
  have hscan : eccbScan (buildCoreSS hdr types body ms) 0 none =
      (some (hdr.length + 2), some (hdr.length + 4 + S.length)) := by
    rw [hbuilt]
    rw [eccbScan_skip hdr _ 0 none hhdr]
    show eccbScan (mainActorLine :: classLine :: (S ++
      ([braceClose] :: [] :: (markTypesLine :: tr)))) (0 + hdr.length)
      none = _
    simp only [eccbScan,
      show hasInfix classLine mainActorLine = false from by decide,
      show hasInfix markTypesLine mainActorLine = false from by decide,
      show hasInfix classLine classLine = true from by decide,
      show hasInfix markTypesLine classLine = false from by decide,
      Bool.false_eq_true, if_false, if_true]
    rw [eccbScan_skip S _ _ _ hSclean]
    simp only [eccbScan,
      show hasInfix classLine [braceClose] = false from by decide,
      show hasInfix markTypesLine [braceClose] = false from by decide,
      show hasInfix classLine ([] : Line) = false from by decide,
      show hasInfix markTypesLine ([] : Line) = false from by decide,
      show hasInfix classLine markTypesLine = false from by decide,
      show hasInfix markTypesLine markTypesLine = true from by decide,
      Bool.false_eq_true, if_false, if_true]
    simp only [Prod.mk.injEq, Option.some.injEq]
    constructor <;> omega
  have hts : hdr.length + 4 + S.length = (hdr.length + 3 + S.length) + 1 := by
    omega
  have hwalk : walkBackBlank (buildCoreSS hdr types body ms)
      (hdr.length + 2) (hdr.length + 3 + S.length) =
      hdr.length + 2 + S.length := by
    have h1 : hdr.length + 3 + S.length = (hdr.length + 2 + S.length) + 1 :=
      by omega
    rw [h1]
    show (if (hdr.length + 2 + S.length) + 1 ≤ hdr.length + 2
        then (hdr.length + 2 + S.length) + 1
        else if (pstrip ((buildCoreSS hdr types body ms).getD
            ((hdr.length + 2 + S.length) + 1) [])).isEmpty
          then walkBackBlank (buildCoreSS hdr types body ms)
            (hdr.length + 2) (hdr.length + 2 + S.length)
          else (hdr.length + 2 + S.length) + 1) = _
    rw [if_neg (by omega)]
    have hgetblank : (buildCoreSS hdr types body ms).getD
        ((hdr.length + 2 + S.length) + 1) [] = [] := by
      rw [hbuilt,
        getD_append_right_at _ _ _ (by omega)]
      have : (hdr.length + 2 + S.length) + 1 - hdr.length =
          S.length + 3 := by omega
      rw [this]
      rw [List.getD_cons_succ, List.getD_cons_succ,
        getD_append_right_at _ _ _ (by omega)]
      have : S.length + 1 - S.length = 1 := by omega
      rw [this]
      rfl
    rw [hgetblank, if_pos (by decide)]
    by_cases hS0 : S.length = 0
    · rw [hS0, Nat.add_zero]
      have hcs2 : hdr.length + 2 = (hdr.length + 1) + 1 := by omega
      rw [hcs2]
      show (if (hdr.length + 1) + 1 ≤ (hdr.length + 1) + 1
          then (hdr.length + 1) + 1 else _) = _
      rw [if_pos (by omega)]
    · have h2 : hdr.length + 2 + S.length = (hdr.length + 1 + S.length) + 1 :=
        by omega
      rw [h2]
      show (if (hdr.length + 1 + S.length) + 1 ≤ hdr.length + 2
          then (hdr.length + 1 + S.length) + 1
          else if (pstrip ((buildCoreSS hdr types body ms).getD
              ((hdr.length + 1 + S.length) + 1) [])).isEmpty
            then walkBackBlank (buildCoreSS hdr types body ms)
              (hdr.length + 2) (hdr.length + 1 + S.length)
            else (hdr.length + 1 + S.length) + 1) = _
      rw [if_neg (by omega)]
      have hgetbr : (buildCoreSS hdr types body ms).getD
          ((hdr.length + 1 + S.length) + 1) [] = [braceClose] := by
        rw [hbuilt,
          getD_append_right_at _ _ _ (by omega)]
        have : (hdr.length + 1 + S.length) + 1 - hdr.length =
            S.length + 2 := by omega
        rw [this]
        rw [List.getD_cons_succ, List.getD_cons_succ,
          getD_append_right_at _ _ _ (by omega)]
        have : S.length - S.length = 0 := by omega
        rw [this]
        rfl
      rw [hgetbr, if_neg (by decide)]
  show (match eccbScan (buildCoreSS hdr types body ms) 0 none with
    | (none, _) => none
    | (some cs, some (ts + 1)) =>
        some ((buildCoreSS hdr types body ms).take (cs - 1),
          (((buildCoreSS hdr types body ms).take
            (walkBackBlank (buildCoreSS hdr types body ms) cs ts)).drop cs,
          (buildCoreSS hdr types body ms).drop (ts + 1)))
    | (some cs, _) => some ((buildCoreSS hdr types body ms).take (cs - 1),
        ((buildCoreSS hdr types body ms).drop cs, []))) = _
  rw [hscan, hts]
  show some ((buildCoreSS hdr types body ms).take (hdr.length + 2 - 1),
    (((buildCoreSS hdr types body ms).take
      (walkBackBlank (buildCoreSS hdr types body ms) (hdr.length + 2)
        (hdr.length + 3 + S.length))).drop (hdr.length + 2),
    (buildCoreSS hdr types body ms).drop (hdr.length + 3 + S.length + 1))) = _
  rw [hwalk]
  have e1 : (buildCoreSS hdr types body ms).take (hdr.length + 2 - 1) =
      hdr ++ [mainActorLine] := by
    rw [hbuilt,
      show hdr ++ (mainActorLine :: classLine :: (S ++
        ([braceClose] :: [] :: (markTypesLine :: tr)))) =
        (hdr ++ [mainActorLine]) ++ (classLine :: (S ++
          ([braceClose] :: [] :: (markTypesLine :: tr)))) from by simp]
    have : hdr.length + 2 - 1 = (hdr ++ [mainActorLine]).length := by
      simp
    rw [this]
    exact List.take_left' rfl
  have e2 : ((buildCoreSS hdr types body ms).take
      (hdr.length + 2 + S.length)).drop (hdr.length + 2) = S := by
    rw [hbuilt,
      show hdr ++ (mainActorLine :: classLine :: (S ++
        ([braceClose] :: [] :: (markTypesLine :: tr)))) =
        ((hdr ++ [mainActorLine, classLine]) ++ S) ++
          ([braceClose] :: [] :: (markTypesLine :: tr)) from by simp]
    have h1 : ((hdr ++ [mainActorLine, classLine]) ++ S).length =
        hdr.length + 2 + S.length := by
      simp only [List.length_append, List.length_cons, List.length_nil]
    rw [List.take_left' h1]
    refine List.drop_left' ?_
    simp only [List.length_append, List.length_cons, List.length_nil]
  have e3 : (buildCoreSS hdr types body ms).drop
      (hdr.length + 3 + S.length + 1) = types := by
    rw [hbuilt, htypes,
      show hdr ++ (mainActorLine :: classLine :: (S ++
        ([braceClose] :: [] :: (markTypesLine :: tr)))) =
        ((hdr ++ [mainActorLine, classLine]) ++ (S ++ [[braceClose], []]))
          ++ (markTypesLine :: tr) from by simp]
    refine List.drop_left' ?_
    simp only [List.length_append, List.length_cons, List.length_nil]
    omega
  rw [e1, e2, e3]

/-- Naive cumulative depth before line k of a body, the value of the
depth variable of the boundary scan when it reaches line k. -/
def naiveCum (body : List Line) (k : Nat) : Int :=
  ((body.take k).map braceNet).sum

/-- Facts about one detected span that the rescan argument needs: the
span is nonempty and inside the body, its first line is a declaration
line at cumulative depth zero, and no interior line is a declaration
line at cumulative depth zero. -/
def SpanFacts (body : List Line) (m : MethodSpan) : Prop :=
  m.start < m.stop ∧ m.stop ≤ body.length ∧
  naiveCum body m.start = 0 ∧
  is_decl (pstrip (body.getD m.start [])) = true ∧
  ∀ j, m.start < j → j < m.stop →
    ¬(naiveCum body j = 0 ∧ is_decl (pstrip (body.getD j [])) = true)

theorem naiveCum_succ (body : List Line) (k : Nat) (l : Line)
    (h : body[k]? = some l) :
    naiveCum body (k + 1) = naiveCum body k + braceNet l := by
  unfold naiveCum
  rw [List.take_succ, h]
  simp

theorem drop_head_getD (body : List Line) (k : Nat) (l : Line)
    (ls2 : List Line) (h : body.drop k = l :: ls2) :
    body[k]? = some l ∧ body.drop (k + 1) = ls2 ∧ k < body.length := by
  have h1 : body[k]? = some l := by
    have := List.getElem?_drop body k 0
    rw [h] at this
    simpa using this.symm
  refine ⟨h1, ?_, ?_⟩
  · have : body.drop (k + 1) = (body.drop k).drop 1 := by
      rw [List.drop_drop]
    rw [this, h]
    rfl
  · by_contra hlen
    push_neg at hlen
    rw [List.drop_eq_nil_of_le hlen] at h
    cases h

theorem scanBodyAux_facts (body : List Line) : ∀ (ls : List Line) (k : Nat)
    (cur : Option (Nat × Line)) (acc : List MethodSpan),
    ls = body.drop k → k ≤ body.length →
    (∀ st, cur = some st → st.1 < k ∧ naiveCum body st.1 = 0 ∧
      is_decl (pstrip (body.getD st.1 [])) = true ∧
      st.2 = body.getD st.1 [] ∧
      ∀ j, st.1 < j → j < k →
        ¬(naiveCum body j = 0 ∧ is_decl (pstrip (body.getD j [])) = true)) →
    (∀ m ∈ acc, SpanFacts body m) →
    ∀ m ∈ scanBodyAux ls k (naiveCum body k) cur acc, SpanFacts body m := by
  intro ls
  induction ls with
  | nil =>
    intro k cur acc hdrop hk hcur hacc m hm
    cases cur with
    | none => exact hacc m hm
    | some st =>
      have hshape : scanBodyAux [] k (naiveCum body k) (some st) acc =
          acc ++ [closeSpan st k] := rfl
      rw [hshape] at hm
      rcases List.mem_append.mp hm with h | h
      · exact hacc m h
      · rcases hcur st rfl with ⟨h1, h2, h3, _, h5⟩
        simp only [List.mem_singleton] at h
        subst h
        exact ⟨h1, hk, h2, h3, fun j hj1 hj2 => h5 j hj1 hj2⟩
  | cons l ls2 ih =>
    intro k cur acc hdrop hk hcur hacc m hm
    rcases drop_head_getD body k l ls2 hdrop.symm with ⟨hget, hdrop2, hklt⟩
    have hgetD : body.getD k [] = l := by
      rw [List.getD_eq_getElem?_getD, hget]
      rfl
    by_cases ht : ((naiveCum body k) == 0 && is_decl (pstrip l)) = true
    · have hcurfact : ∀ st : Nat × Line, some (k, l) = some st →
          st.1 < k + 1 ∧ naiveCum body st.1 = 0 ∧
          is_decl (pstrip (body.getD st.1 [])) = true ∧
          st.2 = body.getD st.1 [] ∧
          ∀ j, st.1 < j → j < k + 1 →
            ¬(naiveCum body j = 0 ∧
              is_decl (pstrip (body.getD j [])) = true) := by
        intro st hst
        injection hst with hst
        subst hst
        simp only [Bool.and_eq_true, beq_iff_eq] at ht
        refine ⟨by omega, by simpa using ht.1, by
          rw [hgetD]; exact ht.2, hgetD.symm, ?_⟩
        intro j hj1 hj2 _
        omega
      cases cur with
      | none =>
        rw [show scanBodyAux (l :: ls2) k (naiveCum body k) none acc =
            scanBodyAux ls2 (k + 1) (naiveCum body k + braceNet l)
              (some (k, l)) acc from by
          simp only [scanBodyAux]
          rw [if_pos ht]] at hm
        rw [show naiveCum body k + braceNet l = naiveCum body (k + 1) from
          (naiveCum_succ body k l hget).symm] at hm
        exact ih (k + 1) (some (k, l)) acc hdrop2.symm (by omega)
          hcurfact hacc m hm
      | some st =>
        rw [show scanBodyAux (l :: ls2) k (naiveCum body k) (some st) acc =
            scanBodyAux ls2 (k + 1) (naiveCum body k + braceNet l)
              (some (k, l)) (acc ++ [closeSpan st k]) from by
          simp only [scanBodyAux]
          rw [if_pos ht]] at hm
        rw [show naiveCum body k + braceNet l = naiveCum body (k + 1) from
          (naiveCum_succ body k l hget).symm] at hm
        refine ih (k + 1) (some (k, l)) _ hdrop2.symm (by omega)
          hcurfact ?_ m hm
        intro m2 hm2
        rcases List.mem_append.mp hm2 with h | h
        · exact hacc m2 h
        · simp only [List.mem_singleton] at h
          subst h
          rcases hcur st rfl with ⟨h1, h2, h3, _, h5⟩
          exact ⟨h1, (show k ≤ body.length by omega), h2, h3,
            fun j hj1 hj2 => h5 j hj1 hj2⟩
    · rw [show scanBodyAux (l :: ls2) k (naiveCum body k) cur acc =
          scanBodyAux ls2 (k + 1) (naiveCum body k + braceNet l) cur acc
          from by
        simp only [scanBodyAux]
        rw [if_neg ht]] at hm
      rw [show naiveCum body k + braceNet l = naiveCum body (k + 1) from
        (naiveCum_succ body k l hget).symm] at hm
      refine ih (k + 1) cur acc hdrop2.symm (by omega) ?_ hacc m hm
      intro st hst
      rcases hcur st hst with ⟨h1, h2, h3, h4, h5⟩
      refine ⟨by omega, h2, h3, h4, ?_⟩
      intro j hj1 hj2
      by_cases hjk : j = k
      · intro hcon
        apply ht
        simp only [Bool.and_eq_true, beq_iff_eq]
        subst hjk
        rw [hgetD] at hcon
        exact ⟨hcon.1, hcon.2⟩
      · exact h5 j hj1 (by omega)

theorem find_methods_facts (body : List Line)
    (m : MethodSpan) (hm : m ∈ find_methods body) : SpanFacts body m := by
  have h0 : naiveCum body 0 = 0 := rfl
  have := scanBodyAux_facts body body 0 none [] (by simp) (by omega)
    (by intro st hst; cases hst) (by intro x hx; cases hx)
  rw [show scanBodyAux body 0 (naiveCum body 0) none [] =
    find_methods body from by rw [h0]; rfl] at this
  exact this m hm

theorem scanBodyAux_pairwise (ls : List Line) :
    ∀ (n : Nat) (d : Int) (cur : Option (Nat × Line))
      (acc : List MethodSpan),
    (cur = none → acc = []) →
    List.Pairwise (fun a b => a.start < b.start) acc →
    (∀ st, cur = some st → st.1 < n ∧ ∀ m ∈ acc, m.start < st.1) →
    List.Pairwise (fun a b => a.start < b.start)
      (scanBodyAux ls n d cur acc) := by
  induction ls with
  | nil =>
    intro n d cur acc hinv hpw hcur
    cases cur with
    | none =>
      rw [hinv rfl]
      exact List.Pairwise.nil
    | some st =>
      show List.Pairwise _ (acc ++ [closeSpan st n])
      rw [List.pairwise_append]
      refine ⟨hpw, List.pairwise_singleton _ _, ?_⟩
      intro x hx y hy
      simp only [List.mem_singleton] at hy
      subst hy
      exact (hcur st rfl).2 x hx
  | cons l ls2 ih =>
    intro n d cur acc hinv hpw hcur
    by_cases ht : (d == 0 && is_decl (pstrip l)) = true
    · cases cur with
      | none =>
        rw [show scanBodyAux (l :: ls2) n d none acc =
            scanBodyAux ls2 (n + 1) (d + braceNet l) (some (n, l)) acc
            from by
          simp only [scanBodyAux]
          rw [if_pos ht]]
        refine ih (n + 1) _ (some (n, l)) acc (by intro h; cases h) hpw ?_
        intro st hst
        injection hst with hst
        subst hst
        refine ⟨by omega, ?_⟩
        rw [hinv rfl]
        intro x hx
        cases hx
      | some st =>
        rw [show scanBodyAux (l :: ls2) n d (some st) acc =
            scanBodyAux ls2 (n + 1) (d + braceNet l) (some (n, l))
              (acc ++ [closeSpan st n]) from by
          simp only [scanBodyAux]
          rw [if_pos ht]]
        rcases hcur st rfl with ⟨hst1, hst2⟩
        refine ih (n + 1) _ (some (n, l)) _ (by intro h; cases h) ?_ ?_
        · rw [List.pairwise_append]
          refine ⟨hpw, List.pairwise_singleton _ _, ?_⟩
          intro x hx y hy
          simp only [List.mem_singleton] at hy
          subst hy
          exact hst2 x hx
        · intro st2 hst2e
          injection hst2e with hst2e
          subst hst2e
          refine ⟨by omega, ?_⟩
          intro x hx
          rcases List.mem_append.mp hx with h | h
          · exact lt_trans (hst2 x h) hst1
          · simp only [List.mem_singleton] at h
            subst h
            exact hst1
    · rw [show scanBodyAux (l :: ls2) n d cur acc =
          scanBodyAux ls2 (n + 1) (d + braceNet l) cur acc from by
        simp only [scanBodyAux]
        rw [if_neg ht]]
      refine ih (n + 1) _ cur acc hinv hpw ?_
      intro st hst
      rcases hcur st hst with ⟨h1, h2⟩
      exact ⟨by omega, h2⟩

theorem find_methods_nodup (body : List Line) :
    (find_methods body).Nodup := by
  have hpw := scanBodyAux_pairwise body 0 0 none [] (fun _ => rfl)
    List.Pairwise.nil (by intro st hst; cases hst)
  exact hpw.imp (fun h => by
    intro he
    rw [he] at h
    omega)

theorem slice_glue (body : List Line) (a s b : Nat) (ha : a ≤ s)
    (hs : s ≤ b) (hb : b ≤ body.length) :
    (body.take s).drop a ++ (body.take b).drop s =
      (body.take b).drop a := by
  have hu : body.take s = (body.take b).take s := by
    rw [List.take_take, min_eq_left hs]
  rw [hu]
  have hlen : s ≤ ((body.take b).take s).length := by
    simp
    omega
  have hsplit : (body.take b).drop a =
      ((body.take b).take s).drop a ++ (body.take b).drop s := by
    conv_lhs => rw [← List.take_append_drop s (body.take b)]
    rw [List.drop_append_of_le_length (by simp; omega)]
  rw [hsplit]

theorem chain_flatten_slices (body : List Line) : ∀ (ms : List MethodSpan)
    (m0 : MethodSpan),
    List.Chain' spanAdj (m0 :: ms) →
    (∀ m ∈ m0 :: ms, m.start ≤ m.stop ∧ m.stop ≤ body.length) →
    (((m0 :: ms).map (spanLines body)).flatten =
      (body.take ((m0 :: ms).getLast (by simp)).stop).drop m0.start) ∧
    m0.start ≤ ((m0 :: ms).getLast (by simp)).stop ∧
    ((m0 :: ms).getLast (by simp)).stop ≤ body.length := by
  intro ms
  induction ms with
  | nil =>
    intro m0 _ hb
    refine ⟨by simp [spanLines], ?_, ?_⟩
    · exact (hb m0 (by simp)).1
    · exact (hb m0 (by simp)).2
  | cons m1 ms2 ih =>
    intro m0 hch hb
    have hch2 : List.Chain' spanAdj (m1 :: ms2) := hch.tail
    have hadj : m0.stop = m1.start := by
      have := List.chain'_cons.mp (by exact hch)
      exact this.1
    rcases ih m1 hch2 (fun m hm => hb m (by simp [hm]))
      with ⟨hflat, hle, hlen⟩
    have hlast : ((m0 :: m1 :: ms2).getLast (by simp)) =
        ((m1 :: ms2).getLast (by simp)) := by
      rw [List.getLast_cons (by simp)]
    refine ⟨?_, ?_, by rw [hlast]; exact hlen⟩
    · show spanLines body m0 ++ ((m1 :: ms2).map (spanLines body)).flatten =
        _
      rw [hflat, hlast]
      show (body.take m0.stop).drop m0.start ++
        (body.take ((m1 :: ms2).getLast (by simp)).stop).drop m1.start = _
      rw [← hadj]
      exact slice_glue body m0.start m0.stop _
        (hb m0 (by simp)).1 (hadj ▸ hle) hlen
    · rw [hlast]
      calc m0.start ≤ m0.stop := (hb m0 (by simp)).1
        _ = m1.start := hadj
        _ ≤ _ := hle

/-- All spans of the six buckets, in the reassembly order of
smart_split.py STEP 1 of the reassembler: the core bucket first and the
five extension buckets in file order. -/
def allCats (b : Buckets) : List MethodSpan :=
  b.core ++ b.sync ++ b.utxo ++ b.sending ++ b.processing ++ b.persistence

theorem allCats_push_perm (b : Buckets) (cat : String) (m : MethodSpan) :
    List.Perm (allCats (pushBucket b cat m)) (m :: allCats b) := by
  rw [List.perm_iff_count]
  intro a
  unfold pushBucket
  split_ifs <;>
    by_cases hma : m = a <;>
      simp [allCats, List.count_append, List.count_cons, beq_iff_eq, hma] <;>
        omega

theorem allCats_foldl_push_perm (g : Buckets → MethodSpan → Buckets)
    (hg : ∀ b m, List.Perm (allCats (g b m)) (m :: allCats b)) :
    ∀ (ms : List MethodSpan) (b : Buckets),
    List.Perm (allCats (ms.foldl g b)) (ms ++ allCats b) := by
  intro ms
  induction ms with
  | nil => intro b; exact List.Perm.refl _
  | cons m ms2 ih =>
    intro b
    show List.Perm (allCats (ms2.foldl g (g b m))) (m :: (ms2 ++ allCats b))
    exact (ih (g b m)).trans
      (((hg b m).append_left ms2).trans List.perm_middle)

theorem initialAssign_perm (ms : List MethodSpan) :
    List.Perm (allCats (initialAssign ms)) ms := by
  have h := allCats_foldl_push_perm
    (fun b m =>
      if CORE_KEEP.contains m.name then pushBucket b "core" m
      else pushBucket b (categorize m.name) m)
    (by
      intro b m
      show List.Perm (allCats (if CORE_KEEP.contains m.name then
          pushBucket b "core" m else pushBucket b (categorize m.name) m))
        (m :: allCats b)
      by_cases hc : CORE_KEEP.contains m.name = true
      · rw [if_pos hc]
        exact allCats_push_perm b "core" m
      · rw [if_neg hc]
        exact allCats_push_perm b (categorize m.name) m)
    ms emptyBuckets
  rw [show allCats emptyBuckets = [] from rfl, List.append_nil] at h
  exact h

theorem count_one_of_nodup_mem (l : List MethodSpan) (m : MethodSpan)
    (hnd : l.Nodup) (hm : m ∈ l) : l.count m = 1 := by
  have h1 := List.nodup_iff_count_le_one.mp hnd m
  have h2 := List.count_pos_iff.mpr hm
  omega

theorem allCats_move_perm (b : Buckets) (m : MethodSpan)
    (hnd : (allCats b).Nodup) (hm : m ∈ allCats b) (hcore : m ∉ b.core) :
    List.Perm (allCats (removeFromCats { b with core := b.core ++ [m] } m))
      (allCats b) := by
  have hone : (allCats b).count m = 1 := count_one_of_nodup_mem _ m hnd hm
  have hcz : b.core.count m = 0 := List.count_eq_zero.mpr hcore
  rw [List.perm_iff_count]
  intro a
  by_cases hma : m = a
  · subst hma
    simp only [allCats, List.count_append] at hone
    simp [allCats, removeFromCats, List.count_append, List.count_erase,
      List.count_cons]
    omega
  · have hba : (m == a) = false := by simp [hma]
    simp [allCats, removeFromCats, List.count_append, List.count_erase,
      List.count_cons, hba]

/-- One step of the property pass of smart_split.py lines 354-367. -/
def ppStep (b : Buckets) (m : MethodSpan) : Buckets :=
  if CORE_KEEP.contains m.name then b
  else if isFuncLike m.firstLine then b
  else if b.core.contains m then b
  else removeFromCats { b with core := b.core ++ [m] } m

theorem propertyPass_eq (ms : List MethodSpan) (b0 : Buckets) :
    propertyPass ms b0 = ms.foldl ppStep b0 := rfl

theorem ppStep_perm (msAll : List MethodSpan) (hnd : msAll.Nodup)
    (b : Buckets) (m : MethodSpan)
    (hb : List.Perm (allCats b) msAll) (hm : m ∈ msAll) :
    List.Perm (allCats (ppStep b m)) msAll := by
  unfold ppStep
  by_cases h1 : CORE_KEEP.contains m.name = true
  · rw [if_pos h1]
    exact hb
  · rw [if_neg h1]
    by_cases h2 : isFuncLike m.firstLine = true
    · rw [if_pos h2]
      exact hb
    · rw [if_neg h2]
      by_cases h3 : b.core.contains m = true
      · rw [if_pos h3]
        exact hb
      · rw [if_neg h3]
        have hm3 : m ∉ b.core := by simpa using h3
        exact (allCats_move_perm b m (hb.nodup_iff.mpr hnd)
          (hb.mem_iff.mpr hm) hm3).trans hb

theorem propertyPass_perm (msAll : List MethodSpan) (hnd : msAll.Nodup) :
    ∀ (ms2 : List MethodSpan) (b : Buckets),
    List.Perm (allCats b) msAll → (∀ x ∈ ms2, x ∈ msAll) →
    List.Perm (allCats (ms2.foldl ppStep b)) msAll := by
  intro ms2
  induction ms2 with
  | nil =>
    intro b hb _
    exact hb
  | cons m ms3 ih =>
    intro b hb hmem
    show List.Perm (allCats (ms3.foldl ppStep (ppStep b m))) msAll
    exact ih (ppStep b m)
      (ppStep_perm msAll hnd b m hb (hmem m (List.mem_cons_self m ms3)))
      (fun x hx => hmem x (List.mem_cons_of_mem m hx))

theorem insertSpan_perm (m : MethodSpan) (l : List MethodSpan) :
    List.Perm (insertSpan m l) (m :: l) := by
  induction l with
  | nil => exact List.Perm.refl _
  | cons x xs ih =>
    show List.Perm
      (if m.start ≤ x.start then m :: x :: xs else x :: insertSpan m xs)
      (m :: x :: xs)
    by_cases h : m.start ≤ x.start
    · rw [if_pos h]
    · rw [if_neg h]
      exact (List.Perm.cons x ih).trans (List.Perm.swap m x xs)

theorem sortSpans_perm (l : List MethodSpan) :
    List.Perm (sortSpans l) l := by
  induction l with
  | nil => exact List.Perm.refl _
  | cons m xs ih =>
    show List.Perm (insertSpan m (xs.foldr insertSpan [])) (m :: xs)
    exact (insertSpan_perm m _).trans (List.Perm.cons m ih)

theorem sortBuckets_perm (b : Buckets) :
    List.Perm (allCats (sortBuckets b)) (allCats b) := by
  show List.Perm
    (sortSpans b.core ++ sortSpans b.sync ++ sortSpans b.utxo ++
      sortSpans b.sending ++ sortSpans b.processing ++
      sortSpans b.persistence)
    (b.core ++ b.sync ++ b.utxo ++ b.sending ++ b.processing ++
      b.persistence)
  exact (((((sortSpans_perm b.core).append (sortSpans_perm b.sync)).append
    (sortSpans_perm b.utxo)).append (sortSpans_perm b.sending)).append
    (sortSpans_perm b.processing)).append (sortSpans_perm b.persistence)

theorem categorizedBuckets_perm (ms : List MethodSpan) (hnd : ms.Nodup) :
    List.Perm (allCats (categorizedBuckets ms)) ms := by
  have h2 : List.Perm (allCats (propertyPass ms (initialAssign ms))) ms := by
    rw [propertyPass_eq]
    exact propertyPass_perm ms hnd ms (initialAssign ms)
      (initialAssign_perm ms) (fun x hx => hx)
  show List.Perm
    (allCats (sortBuckets (propertyPass ms (initialAssign ms)))) ms
  exact (sortBuckets_perm _).trans h2

/-- A reassembled slice rescans as exactly one span: it is nonempty, its
first line is a declaration line, no interior line is a declaration line
at cumulative depth zero, and its net brace count is zero. -/
def SliceGood (sl : List Line) : Prop :=
  sl ≠ [] ∧ is_decl (pstrip (sl.getD 0 [])) = true ∧
  (∀ j, 0 < j → j < sl.length →
    ¬(naiveCum sl j = 0 ∧ is_decl (pstrip (sl.getD j [])) = true)) ∧
  naiveCum sl sl.length = 0

theorem naiveCum_cons (l : Line) (xs : List Line) (j : Nat) :
    naiveCum (l :: xs) (j + 1) = braceNet l + naiveCum xs j := by
  unfold naiveCum
  rw [List.take_succ_cons]
  simp

theorem spanLines_length (body : List Line) (m : MethodSpan)
    (h2 : m.stop ≤ body.length) :
    (spanLines body m).length = m.stop - m.start := by
  unfold spanLines
  rw [List.length_drop, List.length_take]
  omega

theorem spanLines_getD (body : List Line) (m : MethodSpan) (j : Nat)
    (hj : m.start + j < m.stop) (_h2 : m.stop ≤ body.length) :
    (spanLines body m).getD j [] = body.getD (m.start + j) [] := by
  unfold spanLines
  rw [List.getD_eq_getElem?_getD, List.getD_eq_getElem?_getD,
    List.getElem?_drop, List.getElem?_take]
  rw [if_pos hj]

theorem naiveCum_spanLines (body : List Line) (m : MethodSpan) (j : Nat)
    (hss : m.start ≤ m.stop) (_h2 : m.stop ≤ body.length)
    (hj : j ≤ m.stop - m.start) :
    naiveCum (spanLines body m) j =
      naiveCum body (m.start + j) - naiveCum body m.start := by
  have h1 : (spanLines body m).take j =
      (body.take (m.start + j)).drop m.start := by
    unfold spanLines
    rw [List.take_drop, List.take_take]
    congr 2
    omega
  have hsplit : body.take (m.start + j) =
      body.take m.start ++ (body.take (m.start + j)).drop m.start := by
    conv_lhs => rw [← List.take_append_drop m.start (body.take (m.start + j))]
    congr 1
    rw [List.take_take]
    congr 1
    omega
  have e1 : naiveCum (spanLines body m) j =
      (((body.take (m.start + j)).drop m.start).map braceNet).sum := by
    unfold naiveCum
    rw [h1]
  have e2 : naiveCum body (m.start + j) =
      naiveCum body m.start +
      (((body.take (m.start + j)).drop m.start).map braceNet).sum := by
    unfold naiveCum
    conv_lhs => rw [hsplit]
    rw [List.map_append, List.sum_append]
  rw [e1, e2]
  omega

theorem spanFacts_sliceGood (body : List Line) (m : MethodSpan)
    (hf : SpanFacts body m) (hstop : naiveCum body m.stop = 0) :
    SliceGood (spanLines body m) := by
  obtain ⟨h1, h2, h3, h4, h5⟩ := hf
  have hlen : (spanLines body m).length = m.stop - m.start :=
    spanLines_length body m h2
  refine ⟨?_, ?_, ?_, ?_⟩
  · intro he
    rw [he] at hlen
    simp at hlen
    omega
  · have hg := spanLines_getD body m 0 (by omega) h2
    rw [hg, show m.start + 0 = m.start from rfl]
    exact h4
  · intro j hj0 hjlen hcon
    rw [hlen] at hjlen
    have hcum := naiveCum_spanLines body m j (by omega) h2 (by omega)
    have hg := spanLines_getD body m j (by omega) h2
    rw [hcum, h3, hg] at hcon
    obtain ⟨hc1, hc2⟩ := hcon
    exact h5 (m.start + j) (by omega) (by omega) ⟨by omega, hc2⟩
  · rw [hlen]
    have hcum := naiveCum_spanLines body m (m.stop - m.start) (by omega) h2
      (by omega)
    rw [hcum, h3, show m.start + (m.stop - m.start) = m.stop from by omega,
      hstop]
    decide

theorem chain_stops_zero (body : List Line) : ∀ (ms : List MethodSpan),
    List.Chain' spanAdj ms →
    (∀ m ∈ ms, naiveCum body m.start = 0) →
    (∀ mL, ms.getLast? = some mL → naiveCum body mL.stop = 0) →
    ∀ m ∈ ms, naiveCum body m.stop = 0 := by
  intro ms
  induction ms with
  | nil =>
    intro _ _ _ m hm
    cases hm
  | cons m0 ms2 ih =>
    intro hch hstarts hlast m hm
    cases ms2 with
    | nil =>
      have he : m = m0 := by simpa using hm
      subst he
      exact hlast m (by simp)
    | cons m1 ms3 =>
      rcases List.mem_cons.mp hm with h | h
      · subst h
        have hadj : m.stop = m1.start := (List.chain'_cons.mp hch).1
        rw [hadj]
        exact hstarts m1 (by simp)
      · exact ih hch.tail (fun x hx => hstarts x (by simp [hx]))
          (fun mL hmL => hlast mL (by rw [List.getLast?_cons_cons]; exact hmL))
          m h

theorem scan_skip_run : ∀ (xs rest : List Line) (n : Nat) (d : Int)
    (cur : Option (Nat × Line)) (acc : List MethodSpan),
    (∀ j, j < xs.length →
      ¬(d + naiveCum xs j = 0 ∧ is_decl (pstrip (xs.getD j [])) = true)) →
    scanBodyAux (xs ++ rest) n d cur acc =
      scanBodyAux rest (n + xs.length) (d + naiveCum xs xs.length) cur acc := by
  intro xs
  induction xs with
  | nil =>
    intro rest n d cur acc _
    simp [naiveCum]
  | cons l xs2 ih =>
    intro rest n d cur acc h
    have h0 := h 0 (by simp)
    have hnt : ¬((d == 0 && is_decl (pstrip l)) = true) := by
      intro hc
      simp only [Bool.and_eq_true, beq_iff_eq] at hc
      refine h0 ⟨?_, ?_⟩
      · rw [hc.1]
        show (0 : Int) + 0 = 0
        decide
      · exact hc.2
    have hsh : ∀ j, j < xs2.length →
        ¬(d + braceNet l + naiveCum xs2 j = 0 ∧
          is_decl (pstrip (xs2.getD j [])) = true) := by
      intro j hj hcon
      obtain ⟨hc1, hc2⟩ := hcon
      refine h (j + 1) (by simp only [List.length_cons]; omega) ⟨?_, ?_⟩
      · rw [naiveCum_cons]
        omega
      · rw [List.getD_cons_succ]
        exact hc2
    have hstep : scanBodyAux ((l :: xs2) ++ rest) n d cur acc =
        scanBodyAux (xs2 ++ rest) (n + 1) (d + braceNet l) cur acc := by
      show scanBodyAux (l :: (xs2 ++ rest)) n d cur acc = _
      simp only [scanBodyAux]
      rw [if_neg hnt]
    have harg1 : n + (l :: xs2).length = n + 1 + xs2.length := by
      simp only [List.length_cons]
      omega
    have harg2 : d + naiveCum (l :: xs2) (l :: xs2).length =
        d + braceNet l + naiveCum xs2 xs2.length := by
      simp only [List.length_cons]
      rw [naiveCum_cons]
      ring
    rw [hstep, harg1, harg2]
    exact ih rest (n + 1) (d + braceNet l) cur acc hsh

theorem scan_slice_step (sl : List Line) (hg : SliceGood sl)
    (rest : List Line) (n : Nat) (cur : Option (Nat × Line))
    (acc : List MethodSpan) :
    scanBodyAux (sl ++ rest) n 0 cur acc =
      scanBodyAux rest (n + sl.length) 0 (some (n, sl.getD 0 []))
        (match cur with
         | none => acc
         | some st => acc ++ [closeSpan st n]) := by
  obtain ⟨hne, hdecl, hint, hbalS⟩ := hg
  cases sl with
  | nil => exact absurd rfl hne
  | cons l xs =>
    have hdecl2 : is_decl (pstrip l) = true := hdecl
    have htrig : ((0 : Int) == 0 && is_decl (pstrip l)) = true := by
      simp [hdecl2]
    have hstep : scanBodyAux ((l :: xs) ++ rest) n 0 cur acc =
        scanBodyAux (xs ++ rest) (n + 1) (0 + braceNet l) (some (n, l))
          (match cur with
           | none => acc
           | some st => acc ++ [closeSpan st n]) := by
      show scanBodyAux (l :: (xs ++ rest)) n 0 cur acc = _
      simp only [scanBodyAux]
      rw [if_pos htrig]
    have hsh : ∀ j, j < xs.length →
        ¬((0 : Int) + braceNet l + naiveCum xs j = 0 ∧
          is_decl (pstrip (xs.getD j [])) = true) := by
      intro j hj hcon
      obtain ⟨hc1, hc2⟩ := hcon
      refine hint (j + 1) (by omega) (by simp only [List.length_cons]; omega)
        ⟨?_, ?_⟩
      · rw [naiveCum_cons]
        omega
      · rw [List.getD_cons_succ]
        exact hc2
    have harg1 : n + 1 + xs.length = n + (l :: xs).length := by
      simp only [List.length_cons]
      omega
    have harg2 : (0 : Int) + braceNet l + naiveCum xs xs.length = 0 := by
      have hb := hbalS
      simp only [List.length_cons] at hb
      rw [naiveCum_cons] at hb
      omega
    rw [hstep, scan_skip_run xs rest (n + 1) (0 + braceNet l)
      (some (n, l)) _ hsh, harg1, harg2]
    rfl

theorem rescan_count : ∀ (slices : List (List Line)),
    (∀ sl ∈ slices, SliceGood sl) →
    ∀ (n : Nat) (cur : Option (Nat × Line)) (acc : List MethodSpan),
    (scanBodyAux slices.flatten n 0 cur acc).length =
      acc.length + slices.length +
        (match cur with | none => 0 | some _ => 1) := by
  intro slices
  induction slices with
  | nil =>
    intro _ n cur acc
    cases cur with
    | none =>
      show acc.length = acc.length + 0 + 0
      simp
    | some st =>
      show (acc ++ [closeSpan st n]).length = acc.length + 0 + 1
      simp
  | cons sl slices2 ih =>
    intro hg n cur acc
    have hflat : (sl :: slices2).flatten = sl ++ slices2.flatten := rfl
    rw [hflat, scan_slice_step sl (hg sl (by simp)) slices2.flatten n cur acc,
      ih (fun s hs => hg s (by simp [hs])) (n + sl.length)
        (some (n, sl.getD 0 [])) _]
    cases cur with
    | none =>
      show acc.length + slices2.length + 1 =
        acc.length + (sl :: slices2).length + 0
      simp only [List.length_cons]
      omega
    | some st =>
      show (acc ++ [closeSpan st n]).length + slices2.length + 1 =
        acc.length + (sl :: slices2).length + 1
      simp only [List.length_append, List.length_cons, List.length_nil]
      omega

theorem buildExt_extract (catName : String) (body : List Line)
    (ms : List MethodSpan)
    (hpre : ∀ l ∈ ([("// ChatService+" ++ catName ++ ".swift").data,
      "// Split from ChatService.swift for faster incremental builds".data,
      ([] : Line)] ++ v2ImportLines), pstrip l ≠ extHeaderLine) :
    extract_extension_lines (buildExtSS catName body ms) =
      (ms.map (spanLines body)).flatten := by
  have hshape : buildExtSS catName body ms =
      ([("// ChatService+" ++ catName ++ ".swift").data,
        "// Split from ChatService.swift for faster incremental builds".data,
        ([] : Line)] ++ v2ImportLines) ++
      extHeaderLine :: ((ms.map (spanLines body)).flatten ++ [[braceClose]]) := by
    simp [buildExtSS]
  rw [hshape]
  exact extract_ext_shape _ _ hpre

set_option maxRecDepth 4000 in
/-- Claim C5: the round trip through the smart split is a permutation of
the class body grouped by partition category, not the identity; under
the stated conditions (a types section opening with the supporting-types
marker, header and body free of the class-opener and types-marker
strings, a declaration trigger on the first body line, and a balanced
body) splitting, writing the six files, and reassembling STEP-1 style
yields a body that is a permutation of the original, and re-splitting
the reassembled body finds exactly as many declaration spans as
splitting the original. -/
theorem c5_amended_roundtrip_perm_count (hdr types body tr : List Line)
    (htypes : types = markTypesLine :: tr)
    (hhdr : ∀ l ∈ hdr, hasInfix classLine l = false ∧
      hasInfix markTypesLine l = false)
    (hbody : ∀ l ∈ body, hasInfix classLine l = false ∧
      hasInfix markTypesLine l = false)
    (hfirst : firstTriggerIdx body = some 0)
    (hbal : naiveCum body body.length = 0) :
    ∃ rb, roundtripBody hdr types body = some rb ∧
      List.Perm rb body ∧
      (find_methods rb).length = (find_methods body).length := by
  obtain ⟨bk, hbk⟩ : ∃ bk, bk = categorizedBuckets (find_methods body) :=
    ⟨_, rfl⟩
  have hnd : (find_methods body).Nodup := find_methods_nodup body
  have hperm : List.Perm (allCats bk) (find_methods body) := by
    rw [hbk]
    exact categorizedBuckets_perm _ hnd
  have hfacts : ∀ m ∈ find_methods body, SpanFacts body m :=
    fun m hm => find_methods_facts body m hm
  have hchain : List.Chain' spanAdj (find_methods body) :=
    scanBodyAux_chain body 0 0 none [] (fun _ => rfl) List.chain'_nil
      (by intro st m h1 _; cases h1)
  have hhead : (find_methods body).head?.map MethodSpan.start = some 0 := by
    have h := scanBodyAux_head_none body 0 0
    rw [show firstTriggerAux body 0 0 = firstTriggerIdx body from rfl,
      hfirst] at h
    exact h
  obtain ⟨m0, ms2, hcons⟩ : ∃ m0 ms2, find_methods body = m0 :: ms2 := by
    cases hfm : find_methods body with
    | nil =>
      rw [hfm] at hhead
      simp at hhead
    | cons a l => exact ⟨a, l, rfl⟩
  have hm0start : m0.start = 0 := by
    rw [hcons] at hhead
    simpa using hhead
  have hlaststop : ((m0 :: ms2).getLast (by simp)).stop = body.length := by
    have hglast : (find_methods body).getLast? =
        some ((m0 :: ms2).getLast (by simp)) := by
      rw [hcons]
      exact List.getLast?_eq_getLast _ (by simp)
    have h := scanBodyAux_last_stop body 0 0 none [] (fun _ => rfl) _ hglast
    simpa using h
  have hbounds : ∀ m ∈ m0 :: ms2, m.start ≤ m.stop ∧ m.stop ≤ body.length := by
    intro m hm
    have hf := hfacts m (by rw [hcons]; exact hm)
    exact ⟨le_of_lt hf.1, hf.2.1⟩
  have hcover : ((m0 :: ms2).map (spanLines body)).flatten = body := by
    have h := chain_flatten_slices body ms2 m0
      (by rw [← hcons]; exact hchain) hbounds
    rw [h.1, hlaststop, hm0start]
    simp
  have hstops : ∀ m ∈ find_methods body, naiveCum body m.stop = 0 := by
    apply chain_stops_zero body (find_methods body) hchain
    · intro m hm
      exact (hfacts m hm).2.2.1
    · intro mL hmL
      have h := scanBodyAux_last_stop body 0 0 none [] (fun _ => rfl) mL hmL
      rw [h]
      simpa using hbal
  have hgood : ∀ sl ∈ (allCats bk).map (spanLines body), SliceGood sl := by
    intro sl hsl
    rcases List.mem_map.mp hsl with ⟨m, hm, rfl⟩
    have hm2 : m ∈ find_methods body := hperm.mem_iff.mp hm
    exact spanFacts_sliceGood body m (hfacts m hm2) (hstops m hm2)
  have hext1 : extract_extension_lines (buildExtSS "PushAndSync" body bk.sync) =
      (bk.sync.map (spanLines body)).flatten :=
    buildExt_extract "PushAndSync" body bk.sync (by decide)
  have hext2 : extract_extension_lines
      (buildExtSS "UtxoProcessing" body bk.utxo) =
      (bk.utxo.map (spanLines body)).flatten :=
    buildExt_extract "UtxoProcessing" body bk.utxo (by decide)
  have hext3 : extract_extension_lines (buildExtSS "Sending" body bk.sending) =
      (bk.sending.map (spanLines body)).flatten :=
    buildExt_extract "Sending" body bk.sending (by decide)
  have hext4 : extract_extension_lines
      (buildExtSS "Processing" body bk.processing) =
      (bk.processing.map (spanLines body)).flatten :=
    buildExt_extract "Processing" body bk.processing (by decide)
  have hext5 : extract_extension_lines
      (buildExtSS "Persistence" body bk.persistence) =
      (bk.persistence.map (spanLines body)).flatten :=
    buildExt_extract "Persistence" body bk.persistence (by decide)
  refine ⟨((allCats bk).map (spanLines body)).flatten, ?_, ?_, ?_⟩
  · have hsplit : ((allCats bk).map (spanLines body)).flatten =
        (bk.core.map (spanLines body)).flatten ++
        (bk.sync.map (spanLines body)).flatten ++
        (bk.utxo.map (spanLines body)).flatten ++
        (bk.sending.map (spanLines body)).flatten ++
        (bk.processing.map (spanLines body)).flatten ++
        (bk.persistence.map (spanLines body)).flatten := by
      simp only [allCats, List.map_append, List.flatten_append]
    rw [hsplit]
    simp only [roundtripBody]
    rw [← hbk]
    unfold reassembleBody
    rw [extract_core_shape hdr types body bk.core tr htypes hhdr hbody]
    simp only [Option.map_some']
    rw [hext1, hext2, hext3, hext4, hext5]
  · have hp := (hperm.map (spanLines body)).flatten
    rw [hcons] at hp
    rw [hcover] at hp
    exact hp
  · have hr := rescan_count ((allCats bk).map (spanLines body)) hgood 0 none []
    show (scanBodyAux (((allCats bk).map (spanLines body)).flatten)
      0 0 none []).length = (find_methods body).length
    rw [hr]
    simpa using hperm.length_eq

/-- Claim C5, witness: the amended round-trip theorem applied to the
two-function body under an empty header and a types section holding
only the supporting-types marker. -/
theorem c5_amended_witness :
    ∃ rb, roundtripBody [] [markTypesLine] twoFnBody = some rb ∧
      List.Perm rb twoFnBody ∧
      (find_methods rb).length = (find_methods twoFnBody).length :=
  c5_amended_roundtrip_perm_count [] [markTypesLine] twoFnBody []
    rfl (by simp) (by decide) (by decide) (by decide)

/-- Claim C7, witness: the characterization applied to target 0, depth
trace with a single depth-one entry, and a single blank line; the chosen
cut is inside the window and has depth one. -/
theorem c7_amended_witness :
    0 ∈ cutWindow 0 [([] : Line)] ∧ (([1] : List Int).getD 0 0) = 1 := by
  have h := (c7_amended_cut_characterization 0 [1] [[]]).2 0 (by decide)
  exact ⟨h.1, h.2.1⟩

end KaChat
